import Mathlib

/-!
Shallow embedding of the correction-state engine of src/perfecttense.js.

Conventions of the embedding:
* JavaScript objects become Lean structures; mutation in place becomes
  explicit state passing (each operation returns the updated document).
* JavaScript object references are replaced by addressing: a transformation
  is addressed by the pair (sentence index, index in sentence), which is how
  the source itself locates it (data.rulesApplied[transform.sentenceIndex]);
  a group holds the member indices instead of object references, since the
  referenced objects live in sentence.transformations at those indices.
* A field that may be undefined in the raw response (status, groupId) is an
  Option; reading an undefined property as falsy is modelled by the Option
  being none.
* The while loops of the source (the breadth first group search, applyAll,
  undoAll) are given explicit fuel; the fuel chosen for the group search
  bounds the total number of queue insertions the source can perform, so the
  fuel exhaustion branch is unreachable and the function agrees with the
  source on every input.
-/

namespace PT

/-- Token record of the API response: id, text value, trailing whitespace. -/
structure Token where
  id : Nat
  value : String
  after : String
deriving DecidableEq, Repr

/-- The three transformation status strings of the source
(TRANSFORM_STATUS_ACCEPTED, TRANSFORM_STATUS_REJECTED, TRANSFORM_STATUS_CLEAN). -/
inductive Status where
  | clean : Status
  | accepted : Status
  | rejected : Status
deriving DecidableEq, Repr

/-- A transformation (correction). status and groupId are Option because the
raw response may lack them (undefined in the source); the numeric indices and
isAvailable default to junk values before setMetaData assigns them. -/
structure Transform where
  tokensAffected : List Token
  tokensAdded : List Token
  status : Option Status
  isAvailable : Bool
  hasReplacement : Bool
  isSuggestion : Bool
  groupId : Option Nat
  sentenceIndex : Nat
  indexInSentence : Nat
  transformIndex : Nat
deriving DecidableEq, Repr

/-- A sentence of the job result. groups maps a group id to the list of
member positions in transformations (the source stores object references;
the position identifies the same object). -/
structure Sentence where
  originalSentence : List Token
  activeTokens : List Token
  transformations : List Transform
  groups : List (List Nat)
  sentenceIndex : Nat
deriving DecidableEq, Repr

/-- The document result returned from submitJob (fields the engine reads). -/
structure Doc where
  rulesApplied : List Sentence
  hasMeta : Bool
deriving DecidableEq, Repr

/-- Replace the element at the given position, leaving the rest unchanged
(the pure counterpart of mutating one array slot in place). -/
def listModify (f : α → α) : Nat → List α → List α
  | _, [] => []
  | 0, a :: as => f a :: as
  | n + 1, a :: as => a :: listModify f n as

/-- Array.prototype.findIndex over token ids: first position whose id equals
the argument, or -1. -/
def findTokenIdx (allTokens : List Token) (i : Nat) : Int :=
  match allTokens.findIdx? (fun a => a.id == i) with
  | some n => (n : Int)
  | none => -1

/-- Loop body of tokensArePresent: every token must be found, and each one at
the position right after the previous (lastIndex starts at -1). -/
def tokensArePresentAux (allTokens : List Token) : List Token → Int → Bool
  | [], _ => true
  | t :: ts, lastIndex =>
    let indexOfId := findTokenIdx allTokens t.id
    if indexOfId != -1 && (lastIndex == -1 || indexOfId == lastIndex + 1) then
      tokensArePresentAux allTokens ts indexOfId
    else
      false

/-- tokensArePresent of the source: the tokens appear in allTokens with the
same ids, in order and contiguously. -/
def tokensArePresent (tokens allTokens : List Token) : Bool :=
  tokensArePresentAux allTokens tokens (-1)

/-- replaceTokens of the source: splice added in place of affected. If the
affected run is not present the stream is returned unchanged (defensive
branch). For an empty affected list the source would dereference
affected[0] of undefined; that case is unreachable for replacement
transforms and the embedding returns the stream unchanged there. -/
def replaceTokens (tokens affected added : List Token) : List Token :=
  if !tokensArePresent affected tokens then
    tokens
  else
    match affected with
    | [] => tokens
    | a :: rest =>
      let firstTokenId := a.id
      let lastTokenId := ((a :: rest).getLast (by simp)).id
      let startInd := findTokenIdx tokens firstTokenId
      let endInd := findTokenIdx tokens lastTokenId
      if startInd != -1 && endInd != -1 && endInd >= startInd then
        tokens.take startInd.toNat ++ added ++ tokens.drop (endInd.toNat + 1)
      else
        tokens

/-- tokensToString: concatenation of value plus after over the stream. -/
def tokensToString (tokens : List Token) : String :=
  String.join (tokens.map (fun token => token.value ++ token.after))

/-- The ids of a token stream, in order. -/
def tokenIds (ts : List Token) : List Nat :=
  ts.map Token.id

/-- arraysOverlap specialised to the one comparator the source passes
(compareTokens, equality of token ids). -/
def arraysOverlapTokens (a1 a2 : List Token) : Bool :=
  a1.any (fun e1 => a2.any (fun e2 => e1.id == e2.id))

/-- transformsOverlap of the source. -/
def transformsOverlap (t1 t2 : Transform) (inOrder : Bool) : Bool :=
  arraysOverlapTokens t1.tokensAffected t2.tokensAffected ||
    arraysOverlapTokens t1.tokensAdded t2.tokensAffected ||
    (!inOrder && arraysOverlapTokens t2.tokensAdded t1.tokensAffected)

/-- isClean of the source (an undefined status is not clean). -/
def isClean (t : Transform) : Bool := t.status == some Status.clean

/-- isAccepted of the source. -/
def isAccepted (t : Transform) : Bool := t.status == some Status.accepted

/-- isRejected of the source. -/
def isRejected (t : Transform) : Bool := t.status == some Status.rejected

/-- canMakeTransform: the affected tokens are present in the active stream. -/
def canMakeTransform (sentence : Sentence) (transform : Transform) : Bool :=
  tokensArePresent transform.tokensAffected sentence.activeTokens

/-- canUndoTransform of the source. -/
def canUndoTransform (sentence : Sentence) (transform : Transform) : Bool :=
  !transform.hasReplacement ||
    (isAccepted transform && tokensArePresent transform.tokensAdded sentence.activeTokens) ||
    (isRejected transform && tokensArePresent transform.tokensAffected sentence.activeTokens)

/-- Body of setIsAvailable for one transformation: cache whether its affected
tokens are present in the given active stream. -/
def setAvailOne (active : List Token) (t : Transform) : Transform :=
  { t with isAvailable := tokensArePresent t.tokensAffected active }

/-- setIsAvailable of the source, run over the transformations at the given
positions (the member positions stand for the object references the source
iterates). -/
def setIsAvailableAt (sentence : Sentence) (members : List Nat) : Sentence :=
  { sentence with
    transformations :=
      members.foldl (fun ts i => listModify (setAvailOne sentence.activeTokens) i ts)
        sentence.transformations }

/-- updateTokenGroup of the source: refresh isAvailable of every member of
the group of the transformation at position ti. The none branches mirror
lookups the source would crash on (groups[undefined]); they are unreachable
once setMetaData has run. -/
def updateTokenGroup (sentence : Sentence) (ti : Nat) : Sentence :=
  match sentence.transformations.get? ti with
  | none => sentence
  | some t =>
    match t.groupId with
    | none => sentence
    | some gid => setIsAvailableAt sentence ((sentence.groups.get? gid).getD [])

/-- Apply a field update to the transformation at position ti. -/
def setTransformAt (sentence : Sentence) (ti : Nat) (f : Transform → Transform) : Sentence :=
  { sentence with transformations := listModify f ti sentence.transformations }

/-- makeTransform of the source: splice tokensAdded in for tokensAffected
when the transform has a replacement, refresh the group, then unconditionally
clear isAvailable. -/
def makeTransform (sentence : Sentence) (ti : Nat) : Sentence :=
  match sentence.transformations.get? ti with
  | none => sentence
  | some t =>
    setTransformAt
      (if t.hasReplacement then
        updateTokenGroup
          { sentence with
            activeTokens := replaceTokens sentence.activeTokens t.tokensAffected t.tokensAdded }
          ti
       else
        sentence)
      ti (fun tr => { tr with isAvailable := false })

/-- undoTransform of the source: splice tokensAffected back in for
tokensAdded when the transform has a replacement, refresh the group, then
set isAvailable to true. -/
def undoTransform (sentence : Sentence) (ti : Nat) : Sentence :=
  match sentence.transformations.get? ti with
  | none => sentence
  | some t =>
    setTransformAt
      (if t.hasReplacement then
        updateTokenGroup
          { sentence with
            activeTokens := replaceTokens sentence.activeTokens t.tokensAdded t.tokensAffected }
          ti
       else
        sentence)
      ti (fun tr => { tr with isAvailable := true })

/-- Sentence lookup (data.rulesApplied[si]). -/
def Doc.getSentence? (d : Doc) (si : Nat) : Option Sentence :=
  d.rulesApplied.get? si

/-- Transformation lookup by address. -/
def Doc.getTransform? (d : Doc) (si ti : Nat) : Option Transform :=
  (d.rulesApplied.get? si).bind (fun s => s.transformations.get? ti)

/-- In-place update of one sentence of the document. -/
def modifySentence (d : Doc) (si : Nat) (f : Sentence → Sentence) : Doc :=
  { d with rulesApplied := listModify f si d.rulesApplied }

/-- acceptCorrection of the source. The persistence call
(saveTransformStatus) is an external fire and forget side effect with no
bearing on the local state and is not modelled. Returns the updated
document and the success boolean. -/
def acceptCorrection (d : Doc) (si ti : Nat) : Doc × Bool :=
  match d.rulesApplied.get? si with
  | none => (d, false)
  | some s =>
    match s.transformations.get? ti with
    | none => (d, false)
    | some t =>
      if t.isAvailable then
        (modifySentence d si (fun sen =>
          setTransformAt (makeTransform sen ti) ti
            (fun tr => { tr with status := some Status.accepted })), true)
      else
        (d, false)

/-- rejectCorrection of the source: marks the transform rejected and
unavailable without touching the active tokens. -/
def rejectCorrection (d : Doc) (si ti : Nat) : Doc × Bool :=
  match d.rulesApplied.get? si with
  | none => (d, false)
  | some s =>
    match s.transformations.get? ti with
    | none => (d, false)
    | some t =>
      if t.isAvailable then
        (modifySentence d si (fun sen =>
          setTransformAt sen ti
            (fun tr => { tr with status := some Status.rejected, isAvailable := false })), true)
      else
        (d, false)

/-- resetCorrection of the source: undo the transform when canUndoTransform
allows it and set its status back to clean. -/
def resetCorrection (d : Doc) (si ti : Nat) : Doc × Bool :=
  match d.rulesApplied.get? si with
  | none => (d, false)
  | some s =>
    match s.transformations.get? ti with
    | none => (d, false)
    | some t =>
      if canUndoTransform s t then
        (modifySentence d si (fun sen =>
          setTransformAt (undoTransform sen ti) ti
            (fun tr => { tr with status := some Status.clean })), true)
      else
        (d, false)

/-- updateActiveTokens of the source, on the active stream: replay the
transform when it was recovered as accepted. -/
def updateActiveTokens (active : List Token) (transform : Transform) : List Token :=
  if transform.hasReplacement && isAccepted transform then
    replaceTokens active transform.tokensAffected transform.tokensAdded
  else
    active

/-- Replay of a transformation list over a token stream, in list order (the
stored order is transform-index order): the loop setMetaData runs through
updateActiveTokens. -/
def replayList (original : List Token) (ts : List Transform) : List Token :=
  ts.foldl updateActiveTokens original

/-- The unconditional assignment nextTrans.indexInSentence = i the source
performs while scanning positions from start upward; i counts the absolute
position of the list elements. -/
def scanSetIdx (start : Nat) : Nat → List Transform → List Transform
  | _, [] => []
  | i, t :: ts =>
    (if start ≤ i then { t with indexInSentence := i } else t) :: scanSetIdx start (i + 1) ts

/-- The body of one dequeue of the group search when the popped transform tj
at position j has no group yet: assign the group id at position j, write
indexInSentence on every later position (line 997 of the source runs
unconditionally for every scanned transform), and collect the later
ungrouped overlapping positions to enqueue. Returns the updated list and
the enqueued positions. -/
def bfsScan (gid : Nat) (tj : Transform) (j : Nat) (ts : List Transform) :
    List Transform × List Nat :=
  (scanSetIdx (j + 1) 0 (listModify (fun tr => { tr with groupId := some gid }) j ts),
   (List.range
       (scanSetIdx (j + 1) 0
         (listModify (fun tr => { tr with groupId := some gid }) j ts)).length).filter
     (fun i => decide (j + 1 ≤ i) &&
       (match (scanSetIdx (j + 1) 0
           (listModify (fun tr => { tr with groupId := some gid }) j ts)).get? i with
        | some tr => tr.groupId == none && transformsOverlap tj tr true
        | none => false)))

/-- The breadth first group search of setMetaData, on member positions:
pop a position; if its transform has no group yet, assign the group id,
record it as a member, write indexInSentence on every later transform and
enqueue every later ungrouped transform that overlaps. The fuel passed by
the caller exceeds every possible number of queue insertions, so the zero
branch is unreachable. -/
def bfsAssign (gid : Nat) : Nat → List Transform → List Nat → List Nat → List Transform × List Nat
  | 0, ts, grp, _ => (ts, grp)
  | _ + 1, ts, grp, [] => (ts, grp)
  | fuel + 1, ts, grp, j :: rest =>
    match ts.get? j with
    | none => bfsAssign gid fuel ts grp rest
    | some tj =>
      if tj.groupId = none then
        bfsAssign gid fuel (bfsScan gid tj j ts).1 (grp ++ [j])
          (rest ++ (bfsScan gid tj j ts).2)
      else
        bfsAssign gid fuel ts grp rest

/-- Loop state of setMetaData inside one sentence: the transformations, the
active stream, the group table and the global transform counter. The group
id counter of the source always equals the number of groups created, so the
length of groups stands for it. -/
structure SentInit where
  ts : List Transform
  active : List Token
  groups : List (List Nat)
  counter : Nat
deriving Repr

/-- The index assignments of the per-transformation loop of setMetaData
(transformIndex from the global counter, indexInSentence, sentenceIndex). -/
def assignIdx (sentIdx counter j : Nat) (t0 : Transform) : Transform :=
  { t0 with transformIndex := counter, indexInSentence := j, sentenceIndex := sentIdx }

/-- Default an absent status to clean. -/
def defaultStatus (t : Transform) : Transform :=
  if t.status = none then { t with status := some Status.clean } else t

/-- One group search of setMetaData starting from position j, with fuel
exceeding every possible number of queue insertions (at most one per scanned
pair plus the initial element), so the fuel never runs out. -/
def runGroupSearch (gid : Nat) (ts : List Transform) (j : Nat) :
    List Transform × List Nat :=
  bfsAssign gid (ts.length * ts.length + ts.length + 2) ts [] [j]

/-- Body of the per-transformation loop of setMetaData: assign the indices,
default the status to clean, replay a recovered accepted transform into the
active stream, and start a group search when the transform has no group yet
(the group id counter of the source always equals the number of groups
created so far, here the length of the group table). -/
def initStep (sentIdx : Nat) (st : SentInit) (j : Nat) : SentInit :=
  match st.ts.get? j with
  | none => st
  | some t0 =>
    if (defaultStatus (assignIdx sentIdx st.counter j t0)).groupId = none then
      { ts := (runGroupSearch st.groups.length
          (listModify (fun _ => defaultStatus (assignIdx sentIdx st.counter j t0)) j st.ts)
          j).1,
        active := updateActiveTokens st.active (defaultStatus (assignIdx sentIdx st.counter j t0)),
        groups := st.groups ++
          [(runGroupSearch st.groups.length
              (listModify (fun _ => defaultStatus (assignIdx sentIdx st.counter j t0)) j st.ts)
              j).2],
        counter := st.counter + 1 }
    else
      { ts := listModify (fun _ => defaultStatus (assignIdx sentIdx st.counter j t0)) j st.ts,
        active := updateActiveTokens st.active (defaultStatus (assignIdx sentIdx st.counter j t0)),
        groups := st.groups,
        counter := st.counter + 1 }

/-- setMetaData restricted to one sentence: reset the active stream to the
original tokens, run the per-transformation loop, then run setIsAvailable
over every transformation. Returns the initialized sentence and the updated
global transform counter. -/
def initSentence (sentIdx counter : Nat) (s : Sentence) : Sentence × Nat :=
  let st0 : SentInit :=
    { ts := s.transformations, active := s.originalSentence, groups := [], counter := counter }
  let stN := (List.range s.transformations.length).foldl (initStep sentIdx) st0
  ({ originalSentence := s.originalSentence
     activeTokens := stN.active
     transformations := stN.ts.map (setAvailOne stN.active)
     groups := stN.groups
     sentenceIndex := sentIdx }, stN.counter)

/-- The sentence loop of setMetaData, threading the global counter. -/
def initSentences (counter sentIdx : Nat) : List Sentence → List Sentence
  | [] => []
  | s :: rest =>
    let p := initSentence sentIdx counter s
    p.1 :: initSentences p.2 (sentIdx + 1) rest

/-- setMetaData of the source. The guard on a missing rulesApplied field is
about an undefined property and has no counterpart here, where the field is
always present. -/
def setMetaData (d : Doc) : Doc :=
  { d with rulesApplied := initSentences 0 0 d.rulesApplied, hasMeta := true }

/-- Helper naming the state a second setMetaData call produces: every group
table emptied, everything else kept. -/
def clearGroups (d : Doc) : Doc :=
  { d with rulesApplied := d.rulesApplied.map (fun s => { s with groups := [] }) }

/-- The fields of a transformation that the group search never writes:
everything except groupId and indexInSentence. -/
def coreFields (t : Transform) :
    List Token × List Token × Option Status × Bool × Bool × Bool × Nat × Nat :=
  (t.tokensAffected, t.tokensAdded, t.status, t.isAvailable, t.hasReplacement,
   t.isSuggestion, t.transformIndex, t.sentenceIndex)

/-- The fields of a transformation that the replay of recovered accepted
transforms reads. -/
def replayFields (t : Transform) : Bool × Option Status × List Token × List Token :=
  (t.hasReplacement, t.status, t.tokensAffected, t.tokensAdded)

/-- What one pass of initSentence establishes for a sentence processed at
sentence index si with incoming transform counter c. -/
def initializedSentence (si c : Nat) (s : Sentence) : Prop :=
  s.sentenceIndex = si ∧
  s.activeTokens = replayList s.originalSentence s.transformations ∧
  (∀ k t, s.transformations.get? k = some t →
    t.indexInSentence = k ∧ t.transformIndex = c + k ∧ t.sentenceIndex = si ∧
    t.status.isSome = true ∧ t.groupId.isSome = true ∧
    t.isAvailable = tokensArePresent t.tokensAffected s.activeTokens)

/-- Loop invariant of the per-transformation loop of setMetaData after m
steps: lengths and counter are tracked, the active stream is the replay of
the processed prefix, and every processed transformation carries its final
indices, a status and a group. -/
def InitInv (si c0 len : Nat) (orig : List Token) (m : Nat) (st : SentInit) : Prop :=
  st.ts.length = len ∧
  st.counter = c0 + m ∧
  st.active = replayList orig (st.ts.take m) ∧
  (∀ k t, k < m → st.ts.get? k = some t →
    t.indexInSentence = k ∧ t.transformIndex = c0 + k ∧ t.sentenceIndex = si ∧
    t.status.isSome = true ∧ t.groupId.isSome = true)

/-- getSentenceOffset of the source. The source accumulates the offset into
local variables but returns the result of rulesApplied.find (the final
return offset is dead code), so the value produced is the found sentence
object, not a character offset; the embedding returns exactly that. -/
def getSentenceOffset (d : Doc) (sentence : Sentence) : Option Sentence :=
  (d.rulesApplied.enum.find? (fun p => p.1 == sentence.sentenceIndex)).map (fun p => p.2)

/-- The flattened transformation list of the interactive editor, with the
address of each transformation. -/
def flattenedWithAddr (d : Doc) : List ((Nat × Nat) × Transform) :=
  d.rulesApplied.enum.flatMap (fun p =>
    p.2.transformations.enum.map (fun q => ((p.1, q.1), q.2)))

/-- The editor cache allAvailableTransforms. The source recomputes it after
every successful mutating call and nothing else mutates the document, so at
every loop test it equals this filter of the current document. -/
def availableWithAddr (ignoreNoReplacement : Bool) (d : Doc) :
    List ((Nat × Nat) × Transform) :=
  (flattenedWithAddr d).filter (fun e =>
    e.2.isAvailable && (!ignoreNoReplacement || e.2.hasReplacement))

/-- getNextTransform of the editor: first available transformation, skipping
suggestions when asked (getNextNonSuggestion). -/
def getNextTransformE (ignoreNoReplacement ignoreSuggestions : Bool) (d : Doc) :
    Option ((Nat × Nat) × Transform) :=
  if ignoreSuggestions then
    (availableWithAddr ignoreNoReplacement d).find? (fun e => !e.2.isSuggestion)
  else
    (availableWithAddr ignoreNoReplacement d).head?

/-- The applyAll loop of the editor with explicit fuel: while a next
transformation exists, accept it. Also returns the list of transformation
values passed to acceptCorrection, for stating what applyAll accepted. -/
def applyAllGo (ignoreNoReplacement ignoreSuggestions : Bool) :
    Nat → Doc → Doc × List Transform
  | 0, d => (d, [])
  | fuel + 1, d =>
    match getNextTransformE ignoreNoReplacement ignoreSuggestions d with
    | none => (d, [])
    | some e =>
      let d1 := (acceptCorrection d e.1.1 e.1.2).1
      let p := applyAllGo ignoreNoReplacement ignoreSuggestions fuel d1
      (p.1, e.2 :: p.2)

/-- The property names defined on the editor object returned by
interactiveEditor, in source order, including the three assigned after the
object literal. -/
def editorMethods : List String :=
  ["getGrammarScore", "getData", "getUsage", "getTransform", "getSentence",
   "getSentenceFromTransform", "getAllAvailableTransforms", "hasNextTransform",
   "getNextTransform", "getOverlappingTransforms", "getCurrentText",
   "getCurrentSentenceText", "acceptCorrection", "rejectCorrection",
   "undoLastTransform", "canMakeTransform", "canUndoLastTransform",
   "getLastTransform", "getTransformOffset", "getSentenceOffset",
   "getAffectedText", "getAddedText", "getOriginalText", "getAllClean",
   "getNumSentences", "getNumTransformations", "applyAll", "undoAll",
   "getTransformDocumentOffset"]

/-- Truthiness of reading a property off the editor object: every defined
property is a function (truthy); a name not on the object reads as
undefined (falsy). -/
def editorPropTruthy (name : String) : Bool :=
  editorMethods.contains name

/-- Editor state: the wrapped document and the history stack of addresses of
actioned transformations (transformStack; pushes append at the end). -/
structure EditorState where
  doc : Doc
  stack : List (Nat × Nat)
deriving DecidableEq, Repr

/-- undoLastTransform of the editor: reset the most recently actioned
transformation and pop it on success. -/
def undoLastTransformE (st : EditorState) : EditorState × Bool :=
  match st.stack.getLast? with
  | none => (st, false)
  | some a =>
    let p := resetCorrection st.doc a.1 a.2
    if p.2 then ({ doc := p.1, stack := st.stack.dropLast }, true) else (st, false)

/-- The undoAll loop of the editor with explicit fuel. Its condition is the
truthiness of the property read editor.canUndoTransform, exactly as in the
source (which never defines that property). -/
def undoAll : Nat → EditorState → EditorState
  | 0, st => st
  | fuel + 1, st =>
    if editorPropTruthy "canUndoTransform" then
      undoAll fuel (undoLastTransformE st).1
    else
      st

/-! Concrete documents used to evaluate the engine at specific inputs. -/

/-- Short token constructor for the concrete documents. -/
def tok (i : Nat) (v : String) : Token :=
  { id := i, value := v, after := " " }

/-- A transformation as it arrives in the raw response: status and groupId
absent (undefined), the derived numeric fields not yet assigned (their
defaults are junk values setMetaData overwrites). -/
def rawTransform (aff added : List Token) (hasRepl isSugg : Bool) : Transform :=
  { tokensAffected := aff, tokensAdded := added, status := none,
    isAvailable := false, hasReplacement := hasRepl, isSuggestion := isSugg,
    groupId := none, sentenceIndex := 0, indexInSentence := 0, transformIndex := 0 }

/-- A raw sentence: active tokens, groups and index not yet assigned. -/
def rawSentence (orig : List Token) (ts : List Transform) : Sentence :=
  { originalSentence := orig, activeTokens := [], transformations := ts,
    groups := [], sentenceIndex := 0 }

/-- One sentence with tokens 1 2 and three replacement transformations:
position 0 affects token 1, position 1 affects token 2, position 2 affects
tokens 1 and 2. Positions 0 and 2 overlap, positions 1 and 2 overlap,
positions 0 and 1 do not. -/
def docABC : Doc :=
  { rulesApplied :=
      [rawSentence [tok 1 "a", tok 2 "b"]
        [rawTransform [tok 1 "a"] [tok 9 "x"] true false,
         rawTransform [tok 2 "b"] [tok 8 "y"] true false,
         rawTransform [tok 1 "a", tok 2 "b"] [tok 7 "z"] true false]],
    hasMeta := false }

/-- One sentence, one available replacement transformation. -/
def docRej : Doc :=
  { rulesApplied :=
      [rawSentence [tok 1 "a"]
        [rawTransform [tok 1 "a"] [tok 5 "b"] true false]],
    hasMeta := false }

/-- One sentence with a clean comment-only transformation (no replacement)
whose affected token is not present, so it is not available. -/
def docNR : Doc :=
  { rulesApplied :=
      [rawSentence [tok 1 "a"]
        [rawTransform [tok 2 "b"] [] false false]],
    hasMeta := false }

/-- A two-sentence document used on the offset computation. -/
def docTwoSent : Doc :=
  { rulesApplied :=
      [rawSentence [tok 1 "ab"] [],
       rawSentence [tok 2 "cd"] []],
    hasMeta := false }

/-- docABC after initialization. -/
def dInitABC : Doc := setMetaData docABC

/-- dInitABC after accepting the transformation at position 2 (affecting
tokens 1 and 2). The group search put positions 0 and 2 in one group and
position 1 alone in another, so the availability of position 1 is not
refreshed and stays true although token 2 is gone. -/
def dAfterC : Doc := (acceptCorrection dInitABC 0 2).1

/-- dAfterC after accepting the stale-available transformation at
position 1: its splice hits the defensive branch and changes nothing, yet
its status becomes accepted. -/
def dAfterCB : Doc := (acceptCorrection dAfterC 0 1).1

/-!
Definitions for the applyAll termination analysis: the edit shape of a
transformation, the data model conditions of the specification, the
invariant of streams reachable by splices, and a numeric measure of the
document that every applyAll iteration strictly decreases.
-/

/-- The edit shape of a transformation: the ids of the affected run, the
ids of the inserted run, and the replacement flag. These fields are never
written by accept/reject/undo, which touch only status and isAvailable. -/
def shape (t : Transform) : List Nat × List Nat × Bool :=
  (tokenIds t.tokensAffected, tokenIds t.tokensAdded, t.hasReplacement)

/-- No element of the first list occurs in the second. -/
abbrev idsDisjoint (xs ys : List Nat) : Prop := ∀ x ∈ xs, x ∉ ys

/-- The data model conditions of the specification on one sentence's edit
shapes: original ids are pairwise distinct; inserted ids are pairwise
distinct, collide with no original id and no affected id of their own
transformation, and distinct transformations insert disjoint id sets; the
transformations are stored in topological order, so a later
transformation's inserted ids never occur among an earlier one's affected
ids; and a replacement transformation affects at least one token. -/
abbrev shapesWF (orig : List Nat) (sh : List (List Nat × List Nat × Bool)) : Prop :=
  orig.Nodup ∧
  (∀ p ∈ sh, p.2.1.Nodup ∧ idsDisjoint p.2.1 orig ∧ idsDisjoint p.2.1 p.1 ∧
    (p.2.2 = true → p.1 ≠ [])) ∧
  sh.Pairwise (fun a b => idsDisjoint a.2.1 b.2.1 ∧ idsDisjoint b.2.1 a.1)

/-- The data model conditions for one sentence. -/
abbrev sentenceWF (s : Sentence) : Prop :=
  shapesWF (tokenIds s.originalSentence) (s.transformations.map shape)

/-- The data model conditions for every sentence of a document. -/
abbrev docWF (d : Doc) : Prop := ∀ s ∈ d.rulesApplied, sentenceWF s

/-- The id is inserted by a transformation whose position is recorded
in H. -/
def insertedBy (sh : List (List Nat × List Nat × Bool)) (H : List Nat) (x : Nat) : Prop :=
  ∃ b ∈ H, ∃ p, sh.get? b = some p ∧ x ∈ p.2.1

/-- Invariant of a sentence's active id stream relative to a list H of
positions of transformations whose splice has fired (and has not been
undone): the stream ids are pairwise distinct; every stream id is an
original id or was inserted by a member of H; no member of H has any of its
affected ids left in the stream; and every member of H has affected ids
that are original or inserted by members of H. -/
def streamInvH (orig : List Nat) (sh : List (List Nat × List Nat × Bool))
    (H : List Nat) (act : List Nat) : Prop :=
  act.Nodup ∧
  (∀ x ∈ act, x ∈ orig ∨ insertedBy sh H x) ∧
  (∀ b ∈ H, ∀ p, sh.get? b = some p → idsDisjoint p.1 act) ∧
  (∀ b ∈ H, ∀ p, sh.get? b = some p → ∀ x ∈ p.1, x ∈ orig ∨ insertedBy sh H x)

/-- The sentence's stream satisfies the invariant for some list of fired
positions. -/
def sentenceInv (s : Sentence) : Prop :=
  ∃ H, streamInvH (tokenIds s.originalSentence) (s.transformations.map shape) H
    (tokenIds s.activeTokens)

/-- Every sentence's stream satisfies the splice-reachability invariant. -/
def docInv (d : Doc) : Prop := ∀ s ∈ d.rulesApplied, sentenceInv s

/-- A bound exceeding the length of every inserted run of the sentence. -/
def addBound (sh : List (List Nat × List Nat × Bool)) : Nat :=
  (sh.map (fun p => p.2.1.length)).foldr max 0 + 1

/-- The weight of a stream id: exponentially larger for ids inserted by
earlier transformations, and largest for ids no transformation inserts.
Under the topological order of the data model the affected ids a splice
removes outweigh the inserted ids it adds. -/
def insWeight (sh : List (List Nat × List Nat × Bool)) (x : Nat) : Nat :=
  match sh.findIdx? (fun p => decide (x ∈ p.2.1)) with
  | some i => addBound sh ^ (sh.length - i)
  | none => addBound sh ^ (sh.length + 1)

/-- Total weight of an id stream. -/
def streamV (sh : List (List Nat × List Nat × Bool)) (act : List Nat) : Nat :=
  (act.map (insWeight sh)).sum

/-- Weight of a sentence's active stream. -/
def sentenceV (s : Sentence) : Nat :=
  streamV (s.transformations.map shape) (tokenIds s.activeTokens)

/-- Weight of all active streams of the document; it strictly decreases at
every accept whose splice really fires. -/
def docV (d : Doc) : Nat := (d.rulesApplied.map sentenceV).sum

/-- One when the transformation is flagged available or its affected tokens
are present in the given stream, else zero. -/
def phiT (active : List Token) (t : Transform) : Nat :=
  if t.isAvailable || tokensArePresent t.tokensAffected active then 1 else 0

/-- Count of transformations flagged available or present in one
sentence. -/
def sentencePhi (s : Sentence) : Nat :=
  (s.transformations.map (phiT s.activeTokens)).sum

/-- Count of transformations flagged available or present; it strictly
decreases at every accept whose splice is the defensive no-op. -/
def docPhi (d : Doc) : Nat := (d.rulesApplied.map sentencePhi).sum

/-- One when a comment-only transformation is flagged available. -/
def psiT (t : Transform) : Nat :=
  if !t.hasReplacement && t.isAvailable then 1 else 0

/-- Count of flagged comment-only transformations in one sentence. -/
def sentencePsi (s : Sentence) : Nat := (s.transformations.map psiT).sum

/-- Count of flagged comment-only transformations; it strictly decreases at
every accept of one. -/
def docPsi (d : Doc) : Nat := (d.rulesApplied.map sentencePsi).sum

/-- Total number of transformations of the document. -/
def docN (d : Doc) : Nat :=
  (d.rulesApplied.map (fun s => s.transformations.length)).sum

/-- The termination measure of applyAll: the weight of the streams, then
the available-or-present count, then the flagged comment-only count,
combined positionally (the two counts are bounded by docN). -/
def docM (d : Doc) : Nat :=
  docV d * ((docN d + 1) * (docN d + 1)) + docPhi d * (docN d + 1) + docPsi d

/-!
Theorems. Each claim of the specification gets one theorem; counterexample
theorems are closed and evaluate the embedded engine at a concrete input.
Helper lemmas shared between claims come first.
-/

/-- In a stream with pairwise distinct ids, searching for the id of the
element at position n finds exactly position n (shifted by the running
offset of findIdx?). -/
theorem findIdx?_token_eq :
    ∀ (l : List Token) (n strt : Nat) (t : Token), (tokenIds l).Nodup →
      l.get? n = some t →
      List.findIdx? (fun a => a.id == t.id) l strt = some (strt + n) := by
  intro l
  induction l with
  | nil => intro n strt t _ h; simp at h
  | cons a l ih =>
    intro n strt t hnd h
    rw [tokenIds, List.map_cons, List.nodup_cons] at hnd
    cases n with
    | zero =>
      obtain rfl : a = t := by simpa using h
      simp [List.findIdx?_cons]
    | succ n =>
      have hmem : t ∈ l := List.get?_mem (by simpa using h)
      have hne : (a.id == t.id) = false := by
        rw [beq_eq_false_iff_ne]
        intro he
        exact hnd.1 (by rw [he]; exact List.mem_map_of_mem Token.id hmem)
      rw [List.findIdx?_cons, hne]
      have hrec := ih n (strt + 1) t hnd.2 (by simpa using h)
      rw [if_neg (by simp), hrec]
      congr 1
      omega

/-- findTokenIdx on a stream with pairwise distinct ids, at the id of the
element at position n, returns n. -/
theorem findTokenIdx_eq_of_nodup (l : List Token) (n : Nat) (t : Token)
    (hnd : (tokenIds l).Nodup) (h : l.get? n = some t) :
    findTokenIdx l t.id = (n : Int) := by
  rw [findTokenIdx, findIdx?_token_eq l n 0 t hnd h]
  simp

/-- The contiguity loop of tokensArePresent succeeds as soon as every listed
token is found at consecutive positions starting at start, provided the
incoming lastIndex is the initial -1 or the position right before start. -/
theorem tokensArePresentAux_run :
    ∀ (xs full : List Token) (strt : Nat) (lst : Int),
      (lst = -1 ∨ lst = (strt : Int) - 1) →
      (∀ k t, xs.get? k = some t → findTokenIdx full t.id = ((strt + k : Nat) : Int)) →
      tokensArePresentAux full xs lst = true := by
  intro xs
  induction xs with
  | nil => intro full strt lst _ _; rfl
  | cons t ts ih =>
    intro full strt lst hlst hfind
    have h0 : findTokenIdx full t.id = (strt : Int) := by
      simpa using hfind 0 t rfl
    rw [tokensArePresentAux]
    have hcond : (findTokenIdx full t.id != -1 &&
        (lst == -1 || findTokenIdx full t.id == lst + 1)) = true := by
      rw [h0]
      simp only [Bool.and_eq_true, bne_iff_ne, ne_eq, Bool.or_eq_true, beq_iff_eq]
      refine ⟨by omega, ?_⟩
      rcases hlst with rfl | rfl
      · exact Or.inl rfl
      · exact Or.inr (by omega)
    rw [hcond]
    simp only [if_true]
    rw [h0]
    refine ih full (strt + 1) (strt : Int) (Or.inr (by omega)) ?_
    intro k u hu
    have := hfind (k + 1) u (by simpa using hu)
    rw [this]
    congr 1
    omega

/-- tokensArePresent holds of a run that appears literally and contiguously
in a stream with pairwise distinct ids. -/
theorem tokensArePresent_decomp (B X A : List Token)
    (hnd : (tokenIds (B ++ X ++ A)).Nodup) :
    tokensArePresent X (B ++ X ++ A) = true := by
  rw [tokensArePresent]
  refine tokensArePresentAux_run X (B ++ X ++ A) B.length (-1) (Or.inl rfl) ?_
  intro k t hk
  have hlt : k < X.length := by
    by_contra hge
    rw [List.get?_eq_none.2 (by omega)] at hk
    exact Option.noConfusion hk
  have hget : (B ++ X ++ A).get? (B.length + k) = some t := by
    rw [List.append_assoc, List.get?_append_right (by omega)]
    have : B.length + k - B.length = k := by omega
    rw [this, List.get?_append hlt, hk]
  exact findTokenIdx_eq_of_nodup _ _ _ hnd hget

/-- replaceTokens on a stream that decomposes around the removed run, with
pairwise distinct ids, removes exactly that run and inserts the replacement
in its place. -/
theorem replaceTokens_decomp (B X A Y : List Token) (hne : X ≠ [])
    (hnd : (tokenIds (B ++ X ++ A)).Nodup) :
    replaceTokens (B ++ X ++ A) X Y = B ++ Y ++ A := by
  obtain ⟨a, rest, rfl⟩ := List.exists_cons_of_ne_nil hne
  rw [replaceTokens]
  rw [tokensArePresent_decomp B (a :: rest) A hnd]
  simp only [Bool.not_true, Bool.false_eq_true, if_false]
  have hstart : findTokenIdx (B ++ (a :: rest) ++ A) a.id = (B.length : Int) := by
    refine findTokenIdx_eq_of_nodup _ B.length a hnd ?_
    rw [List.append_assoc, List.get?_append_right (by omega)]
    simp
  have hlastget : (B ++ (a :: rest) ++ A).get? (B.length + rest.length) =
      some ((a :: rest).getLast (by simp)) := by
    rw [List.append_assoc, List.get?_append_right (by omega)]
    have h1 : B.length + rest.length - B.length = rest.length := by omega
    rw [h1, List.get?_append (by simp)]
    rw [List.getLast_eq_get]
    exact List.get?_eq_get _
  have hend : findTokenIdx (B ++ (a :: rest) ++ A) ((a :: rest).getLast (by simp)).id =
      ((B.length + rest.length : Nat) : Int) :=
    findTokenIdx_eq_of_nodup _ _ _ hnd hlastget
  rw [hstart, hend]
  have hcond : (((B.length : Nat) : Int) != -1 &&
      (((B.length + rest.length : Nat) : Int) != -1 &&
        ((B.length + rest.length : Nat) : Int) ≥ ((B.length : Nat) : Int))) = true := by
    simp
    omega
  rw [if_pos (by simpa using hcond)]
  have htoN1 : ((B.length : Nat) : Int).toNat = B.length := by omega
  have htoN2 : ((B.length + rest.length : Nat) : Int).toNat + 1 =
      B.length + (a :: rest).length := by
    simp
    omega
  rw [htoN1, htoN2]
  have htake : (B ++ (a :: rest) ++ A).take B.length = B := by
    rw [List.append_assoc]
    exact List.take_left B ((a :: rest) ++ A)
  have hdrop : (B ++ (a :: rest) ++ A).drop (B.length + (a :: rest).length) = A := by
    have hlen : B.length + (a :: rest).length = (B ++ (a :: rest)).length := by
      simp
    rw [hlen]
    exact List.drop_left (B ++ (a :: rest)) A
  rw [htake, hdrop, List.append_assoc]

/-- Replacing the middle run of an id-distinct stream by a run of fresh,
pairwise distinct ids yields again an id-distinct stream. -/
theorem nodup_tokenIds_replace (B X A Y : List Token)
    (hnd : (tokenIds (B ++ X ++ A)).Nodup)
    (hY : (tokenIds Y).Nodup)
    (hfresh : ∀ i ∈ tokenIds Y, i ∉ tokenIds B ∧ i ∉ tokenIds A) :
    (tokenIds (B ++ Y ++ A)).Nodup := by
  rw [tokenIds, List.append_assoc, List.map_append, List.map_append,
    List.nodup_append] at hnd ⊢
  obtain ⟨hB, hXA, hdisjB⟩ := hnd
  rw [List.nodup_append] at hXA
  refine ⟨hB, ?_, ?_⟩
  · rw [List.nodup_append]
    refine ⟨hY, hXA.2.1, ?_⟩
    intro i hiY hiA
    exact (hfresh i hiY).2 hiA
  · intro i hiB hiYA
    rcases List.mem_append.1 hiYA with hiY | hiA
    · exact (hfresh i hiY).1 hiB
    · exact hdisjB hiB (List.mem_append_right _ hiA)

/-- Length is unchanged by listModify. -/
theorem length_listModify (f : α → α) :
    ∀ (n : Nat) (l : List α), (listModify f n l).length = l.length := by
  intro n l
  induction l generalizing n with
  | nil => cases n <;> rfl
  | cons a l ih => cases n with
    | zero => rfl
    | succ n => simpa [listModify] using ih n

/-- Lookup after listModify: the modified position is mapped, the others are
unchanged. -/
theorem get?_listModify (f : α → α) :
    ∀ (n m : Nat) (l : List α),
      (listModify f n l).get? m = if m = n then (l.get? m).map f else l.get? m := by
  intro n m l
  induction l generalizing n m with
  | nil => cases n <;> cases m <;> simp [listModify]
  | cons a l ih =>
    cases n with
    | zero => cases m with
      | zero => simp [listModify]
      | succ m => simp [listModify]
    | succ n => cases m with
      | zero => simp [listModify]
      | succ m => simpa [listModify] using ih n m

/-- Recomputing the cached availability twice from the same stream equals
recomputing it once. -/
theorem setAvailOne_collapse (act : List Token) (t : Transform) :
    setAvailOne act (setAvailOne act t) = setAvailOne act t := rfl

/-- The setIsAvailable fold over member positions recomputes exactly the
flags at those positions from the given stream. -/
theorem get?_setAvailFold (act : List Token) :
    ∀ (members : List Nat) (ts : List Transform) (k : Nat),
      (members.foldl (fun ts i => listModify (setAvailOne act) i ts) ts).get? k =
        if k ∈ members then (ts.get? k).map (setAvailOne act) else ts.get? k := by
  intro members
  induction members with
  | nil => intro ts k; simp
  | cons i rest ih =>
    intro ts k
    rw [List.foldl_cons, ih, get?_listModify]
    by_cases hk : k = i
    · subst hk
      by_cases hr : k ∈ rest
      · simp only [hr, if_true, if_pos rfl, List.mem_cons, true_or]
        cases ts.get? k <;> simp [setAvailOne_collapse]
      · simp [hr]
    · by_cases hr : k ∈ rest
      · simp [hk, hr]
      · simp [hk, hr]

/-- updateTokenGroup keeps the active stream, the original tokens and the
group table of the sentence. -/
theorem updateTokenGroup_fields (s : Sentence) (ti : Nat) :
    (updateTokenGroup s ti).activeTokens = s.activeTokens ∧
    (updateTokenGroup s ti).originalSentence = s.originalSentence ∧
    (updateTokenGroup s ti).groups = s.groups := by
  unfold updateTokenGroup
  split
  · exact ⟨rfl, rfl, rfl⟩
  · split
    · exact ⟨rfl, rfl, rfl⟩
    · exact ⟨rfl, rfl, rfl⟩

/-- A transformation seen through updateTokenGroup is either untouched or
has had only its isAvailable flag recomputed from the sentence's stream. -/
theorem get?_updateTokenGroup (s : Sentence) (ti k : Nat) :
    (updateTokenGroup s ti).transformations.get? k = s.transformations.get? k ∨
    (updateTokenGroup s ti).transformations.get? k =
      (s.transformations.get? k).map (setAvailOne s.activeTokens) := by
  unfold updateTokenGroup
  split
  · exact Or.inl rfl
  · split
    · exact Or.inl rfl
    · show ((_ : List Nat).foldl _ s.transformations).get? k = _ ∨
        ((_ : List Nat).foldl _ s.transformations).get? k = _
      rw [get?_setAvailFold]
      split
      · exact Or.inr rfl
      · exact Or.inl rfl

/-- How makeTransform transforms the sentence: the stream is spliced when
the transform has a replacement, the original tokens are kept, and the
transform itself ends with isAvailable false and its other fields intact. -/
theorem makeTransform_spec (s : Sentence) (ti : Nat) (t : Transform)
    (ht : s.transformations.get? ti = some t) :
    (makeTransform s ti).activeTokens =
      (if t.hasReplacement then
        replaceTokens s.activeTokens t.tokensAffected t.tokensAdded
       else s.activeTokens) ∧
    (makeTransform s ti).originalSentence = s.originalSentence ∧
    (makeTransform s ti).transformations.get? ti = some { t with isAvailable := false } := by
  unfold makeTransform
  split
  next heq => rw [ht] at heq; exact Option.noConfusion heq
  next t' heq =>
    rw [ht] at heq
    obtain rfl : t = t' := (Option.some.injEq _ _).mp heq
    have hM : ({ s with
        activeTokens := replaceTokens s.activeTokens t.tokensAffected t.tokensAdded } :
          Sentence).transformations.get? ti = some t := ht
    by_cases hrep : t.hasReplacement = true
    · rw [if_pos hrep, if_pos hrep]
      refine ⟨(updateTokenGroup_fields _ ti).1, (updateTokenGroup_fields _ ti).2.1, ?_⟩
      show (listModify _ ti (updateTokenGroup _ ti).transformations).get? ti = _
      rw [get?_listModify, if_pos rfl]
      rcases (get?_updateTokenGroup ({ s with
          activeTokens := replaceTokens s.activeTokens t.tokensAffected t.tokensAdded }) ti ti)
        with h | h
      · rw [h, hM]; rfl
      · rw [h, hM]; rfl
    · rw [if_neg hrep, if_neg hrep]
      refine ⟨rfl, rfl, ?_⟩
      show (listModify _ ti s.transformations).get? ti = _
      rw [get?_listModify, if_pos rfl, ht]
      rfl

/-- How undoTransform transforms the sentence: the stream is spliced back
when the transform has a replacement, and the transform ends with
isAvailable true and its other fields intact. -/
theorem undoTransform_spec (s : Sentence) (ti : Nat) (t : Transform)
    (ht : s.transformations.get? ti = some t) :
    (undoTransform s ti).activeTokens =
      (if t.hasReplacement then
        replaceTokens s.activeTokens t.tokensAdded t.tokensAffected
       else s.activeTokens) ∧
    (undoTransform s ti).originalSentence = s.originalSentence ∧
    (undoTransform s ti).transformations.get? ti = some { t with isAvailable := true } := by
  unfold undoTransform
  split
  next heq => rw [ht] at heq; exact Option.noConfusion heq
  next t' heq =>
    rw [ht] at heq
    obtain rfl : t = t' := (Option.some.injEq _ _).mp heq
    have hM : ({ s with
        activeTokens := replaceTokens s.activeTokens t.tokensAdded t.tokensAffected } :
          Sentence).transformations.get? ti = some t := ht
    by_cases hrep : t.hasReplacement = true
    · rw [if_pos hrep, if_pos hrep]
      refine ⟨(updateTokenGroup_fields _ ti).1, (updateTokenGroup_fields _ ti).2.1, ?_⟩
      show (listModify _ ti (updateTokenGroup _ ti).transformations).get? ti = _
      rw [get?_listModify, if_pos rfl]
      rcases (get?_updateTokenGroup ({ s with
          activeTokens := replaceTokens s.activeTokens t.tokensAdded t.tokensAffected }) ti ti)
        with h | h
      · rw [h, hM]; rfl
      · rw [h, hM]; rfl
    · rw [if_neg hrep, if_neg hrep]
      refine ⟨rfl, rfl, ?_⟩
      show (listModify _ ti s.transformations).get? ti = _
      rw [get?_listModify, if_pos rfl, ht]
      rfl

/-- Lookup of the modified sentence. -/
theorem get?_modifySentence_self (d : Doc) (si : Nat) (f : Sentence → Sentence)
    (s : Sentence) (hs : d.rulesApplied.get? si = some s) :
    (modifySentence d si f).rulesApplied.get? si = some (f s) := by
  show (listModify f si d.rulesApplied).get? si = some (f s)
  rw [get?_listModify, if_pos rfl, hs]
  rfl

/-- Transformations with the same core fields have the same replay fields. -/
theorem replayFields_of_coreFields (t t' : Transform)
    (h : coreFields t' = coreFields t) : replayFields t' = replayFields t := by
  cases t
  cases t'
  simp [coreFields] at h
  simp [replayFields]
  exact ⟨h.2.2.2.2.1, h.2.2.1, h.1, h.2.1⟩

/-- updateActiveTokens reads only the replay fields. -/
theorem updateActiveTokens_congr (a : List Token) (t t' : Transform)
    (h : replayFields t' = replayFields t) :
    updateActiveTokens a t' = updateActiveTokens a t := by
  cases t
  cases t'
  simp [replayFields] at h
  simp [updateActiveTokens, isAccepted, h.1, h.2.1, h.2.2.1, h.2.2.2]

/-- replayList reads only the replay fields of the list. -/
theorem replayList_congr (o : List Token) :
    ∀ (ts ts' : List Transform),
      ts'.map replayFields = ts.map replayFields → replayList o ts' = replayList o ts := by
  intro ts
  induction ts generalizing o with
  | nil =>
    intro ts' h
    rw [List.map_nil, List.map_eq_nil] at h
    rw [h]
  | cons t ts ih =>
    intro ts' h
    cases ts' with
    | nil => simp at h
    | cons u us =>
      rw [List.map_cons, List.map_cons] at h
      obtain ⟨h1, h2⟩ : replayFields u = replayFields t ∧
          us.map replayFields = ts.map replayFields := by
        exact ⟨by injection h, by injection h⟩
      show replayList (updateActiveTokens o u) us = replayList (updateActiveTokens o t) ts
      rw [updateActiveTokens_congr o t u h1]
      exact ih _ us h2

/-- Taking one more element extends the replay by one step. -/
theorem replayList_take_succ (orig : List Token) (ts : List Transform) (m : Nat)
    (t : Transform) (h : ts.get? m = some t) :
    replayList orig (ts.take (m + 1)) =
      updateActiveTokens (replayList orig (ts.take m)) t := by
  have h' : ts[m]? = some t := by simpa using h
  rw [List.take_succ, h']
  show (ts.take m ++ [t]).foldl updateActiveTokens orig = _
  rw [List.foldl_append]
  rfl

/-- Overwriting a position with the value it already holds changes nothing. -/
theorem listModify_const_self :
    ∀ (n : Nat) (l : List α) (a : α), l.get? n = some a →
      listModify (fun _ => a) n l = l := by
  intro n l
  induction l generalizing n with
  | nil => intro a h; simp at h
  | cons x xs ih =>
    intro a h
    cases n with
    | zero =>
      obtain rfl : x = a := by simpa using h
      rfl
    | succ n =>
      show x :: listModify (fun _ => a) n xs = x :: xs
      rw [ih n a (by simpa using h)]

/-- Assigning indices a transformation already carries changes nothing. -/
theorem assignIdx_self (si cnt j : Nat) (t : Transform)
    (h1 : t.transformIndex = cnt) (h2 : t.indexInSentence = j)
    (h3 : t.sentenceIndex = si) :
    assignIdx si cnt j t = t := by
  cases t
  simp_all [assignIdx]

/-- Defaulting the status of a transformation that has one changes nothing. -/
theorem defaultStatus_of_isSome (t : Transform) (h : t.status.isSome = true) :
    defaultStatus t = t := by
  rw [defaultStatus, if_neg]
  intro hc
  rw [hc] at h
  simp at h

/-- Recomputing availability flags that are already consistent with the
stream changes nothing. -/
theorem map_setAvailOne_self :
    ∀ (ts : List Transform) (act : List Token),
      (∀ k t, ts.get? k = some t →
        t.isAvailable = tokensArePresent t.tokensAffected act) →
      ts.map (setAvailOne act) = ts := by
  intro ts
  induction ts with
  | nil => intro act _; rfl
  | cons t ts ih =>
    intro act h
    have h0 : t.isAvailable = tokensArePresent t.tokensAffected act := h 0 t rfl
    have hhead : setAvailOne act t = t := by
      cases t
      simp_all [setAvailOne]
    rw [List.map_cons, hhead, ih act (fun k u hu => h (k + 1) u (by simpa using hu))]

/-- Strengthened induction over a foldl on List.range. -/
theorem foldl_range_inv {β : Type} (f : β → Nat → β) (P : Nat → β → Prop) :
    ∀ (n : Nat) (b0 : β), P 0 b0 → (∀ m b, m < n → P m b → P (m + 1) (f b m)) →
      P n ((List.range n).foldl f b0) := by
  intro n
  induction n with
  | zero => intro b0 h0 _; exact h0
  | succ n ih =>
    intro b0 h0 hstep
    rw [List.range_succ, List.foldl_append]
    exact hstep n _ (Nat.lt_succ_self n)
      (ih b0 h0 (fun m b hm hb => hstep m b (Nat.lt_succ_of_lt hm) hb))

/-- scanSetIdx keeps the length. -/
theorem scanSetIdx_length :
    ∀ (start i : Nat) (ts : List Transform),
      (scanSetIdx start i ts).length = ts.length := by
  intro start i ts
  induction ts generalizing i with
  | nil => rfl
  | cons t ts ih => simp [scanSetIdx, ih]

/-- Lookup after the indexInSentence scan: a position at or past start gets
its indexInSentence set to its absolute position, earlier positions are
untouched. -/
theorem get?_scanSetIdx :
    ∀ (start i k : Nat) (ts : List Transform),
      (scanSetIdx start i ts).get? k =
        (ts.get? k).map (fun t =>
          if start ≤ i + k then { t with indexInSentence := i + k } else t) := by
  intro start i k ts
  induction ts generalizing i k with
  | nil => simp [scanSetIdx]
  | cons t ts ih =>
    cases k with
    | zero => simp [scanSetIdx]
    | succ k =>
      show (scanSetIdx start (i + 1) ts).get? k = _
      rw [ih (i + 1) k]
      have harith : i + 1 + k = i + (k + 1) := by omega
      rw [harith]
      rfl

/-- Lookup through the write-and-scan step of one dequeue of the group
search. -/
theorem get?_bfsScan (gid : Nat) (tj : Transform) (j : Nat) (ts : List Transform)
    (k : Nat) (t : Transform) (hk : ts.get? k = some t) :
    (bfsScan gid tj j ts).1.get? k =
      some (if j + 1 ≤ k then
              { (if k = j then { t with groupId := some gid } else t) with
                  indexInSentence := k }
            else (if k = j then { t with groupId := some gid } else t)) := by
  show (scanSetIdx (j + 1) 0 (listModify _ j ts)).get? k = _
  rw [get?_scanSetIdx, get?_listModify]
  by_cases hkj : k = j
  · rw [if_pos hkj, hk]
    simp only [Option.map_some', Nat.zero_add, hkj]
    have hfalse : ¬(j + 1 ≤ j) := by omega
    simp [hfalse]
  · rw [if_neg hkj, hk]
    simp only [Option.map_some', Nat.zero_add, if_neg hkj]

/-- The group search keeps the length of the transformation list. -/
theorem bfsAssign_length (gid : Nat) :
    ∀ (fuel : Nat) (ts : List Transform) (grp q : List Nat),
      (bfsAssign gid fuel ts grp q).1.length = ts.length := by
  intro fuel
  induction fuel with
  | zero => intro ts grp q; rfl
  | succ fuel ih =>
    intro ts grp q
    cases q with
    | nil => rfl
    | cons j rest =>
      simp only [bfsAssign]
      split
      · exact ih ts grp rest
      next tj _ =>
        split
        · rw [ih]
          show (scanSetIdx (j + 1) 0 (listModify _ j ts)).length = ts.length
          rw [scanSetIdx_length, length_listModify]
        · exact ih ts grp rest

/-- The group search never writes the core fields of any transformation; it
only turns absent group ids into the group being built and writes
indexInSentence values equal to the positions they describe. -/
theorem bfsAssign_get? (gid : Nat) :
    ∀ (fuel : Nat) (ts : List Transform) (grp q : List Nat) (k : Nat) (t : Transform),
      ts.get? k = some t →
      ∃ t', (bfsAssign gid fuel ts grp q).1.get? k = some t' ∧
        coreFields t' = coreFields t ∧
        (∀ g, t.groupId = some g → t'.groupId = some g) ∧
        (t.indexInSentence = k → t'.indexInSentence = k) := by
  intro fuel
  induction fuel with
  | zero =>
    intro ts grp q k t hk
    exact ⟨t, hk, rfl, fun _ hg => hg, fun h => h⟩
  | succ fuel ih =>
    intro ts grp q k t hk
    cases q with
    | nil => exact ⟨t, hk, rfl, fun _ hg => hg, fun h => h⟩
    | cons j rest =>
      simp only [bfsAssign]
      split
      · exact ih ts grp rest k t hk
      next tj hj =>
        split
        next hg =>
          obtain ⟨t', h1, h2, h3, h4⟩ :=
            ih (bfsScan gid tj j ts).1 (grp ++ [j]) (rest ++ (bfsScan gid tj j ts).2) k
              (if j + 1 ≤ k then
                { (if k = j then { t with groupId := some gid } else t) with
                    indexInSentence := k }
               else (if k = j then { t with groupId := some gid } else t))
              (get?_bfsScan gid tj j ts k t hk)
          refine ⟨t', h1, ?_, ?_, ?_⟩
          · rw [h2]
            by_cases ha : j + 1 ≤ k <;> by_cases hb : k = j <;>
              simp [ha, hb, coreFields]
          · intro g hgt
            apply h3
            by_cases ha : j + 1 ≤ k <;> by_cases hb : k = j
            · omega
            · simpa [ha, hb] using hgt
            · subst hb
              rw [hk] at hj
              obtain rfl : t = tj := (Option.some.injEq _ _).mp hj
              rw [hg] at hgt
              exact Option.noConfusion hgt
            · simpa [ha, hb] using hgt
          · intro hidx
            apply h4
            by_cases ha : j + 1 ≤ k <;> by_cases hb : k = j <;>
              simp [ha, hb, hidx]
        · exact ih ts grp rest k t hk

/-- When the group search starts from an ungrouped position j, it assigns
that position a group, keeping its core fields and index. -/
theorem bfsAssign_head (gid : Nat) (fuel : Nat) (ts : List Transform)
    (grp rest : List Nat) (j : Nat) (tj : Transform)
    (hj : ts.get? j = some tj) (hg : tj.groupId = none) :
    ∃ t', (bfsAssign gid (fuel + 1) ts grp (j :: rest)).1.get? j = some t' ∧
      coreFields t' = coreFields tj ∧
      t'.groupId.isSome = true ∧
      (tj.indexInSentence = j → t'.indexInSentence = j) := by
  simp only [bfsAssign]
  split
  next heq => rw [hj] at heq; exact Option.noConfusion heq
  next tj' heq =>
    rw [hj] at heq
    obtain rfl : tj = tj' := (Option.some.injEq _ _).mp heq
    rw [if_pos hg]
    have hmid : (bfsScan gid tj j ts).1.get? j = some { tj with groupId := some gid } := by
      rw [get?_bfsScan gid tj j ts j tj hj]
      rw [if_neg (by omega), if_pos rfl]
    obtain ⟨t', h1, h2, h3, h4⟩ :=
      bfsAssign_get? gid fuel (bfsScan gid tj j ts).1 (grp ++ [j])
        (rest ++ (bfsScan gid tj j ts).2) j { tj with groupId := some gid } hmid
    refine ⟨t', h1, h2, ?_, h4⟩
    rw [h3 gid rfl]
    rfl

/-- Field equalities packed in a coreFields equality. -/
theorem coreFields_eq (t t' : Transform) (h : coreFields t' = coreFields t) :
    t'.tokensAffected = t.tokensAffected ∧ t'.tokensAdded = t.tokensAdded ∧
    t'.status = t.status ∧ t'.isAvailable = t.isAvailable ∧
    t'.hasReplacement = t.hasReplacement ∧ t'.isSuggestion = t.isSuggestion ∧
    t'.transformIndex = t.transformIndex ∧ t'.sentenceIndex = t.sentenceIndex := by
  cases t
  cases t'
  simpa [coreFields] using h

/-- defaultStatus keeps everything but the status, and always leaves a
present status. -/
theorem defaultStatus_spec (t : Transform) :
    (defaultStatus t).indexInSentence = t.indexInSentence ∧
    (defaultStatus t).transformIndex = t.transformIndex ∧
    (defaultStatus t).sentenceIndex = t.sentenceIndex ∧
    (defaultStatus t).groupId = t.groupId ∧
    (defaultStatus t).status.isSome = true := by
  rw [defaultStatus]
  split
  · exact ⟨rfl, rfl, rfl, rfl, rfl⟩
  next h =>
    refine ⟨rfl, rfl, rfl, rfl, ?_⟩
    cases ho : t.status with
    | none => exact absurd ho h
    | some u => simp

/-- Length through one group search. -/
theorem runGroupSearch_length (gid : Nat) (ts : List Transform) (j : Nat) :
    (runGroupSearch gid ts j).1.length = ts.length :=
  bfsAssign_length gid _ ts [] [j]

/-- Pointwise view through one group search. -/
theorem runGroupSearch_get? (gid : Nat) (ts : List Transform) (j k : Nat)
    (t : Transform) (hk : ts.get? k = some t) :
    ∃ t', (runGroupSearch gid ts j).1.get? k = some t' ∧
      coreFields t' = coreFields t ∧
      (∀ g, t.groupId = some g → t'.groupId = some g) ∧
      (t.indexInSentence = k → t'.indexInSentence = k) :=
  bfsAssign_get? gid _ ts [] [j] k t hk

/-- One group search started at an ungrouped position assigns it a group. -/
theorem runGroupSearch_head (gid : Nat) (ts : List Transform) (j : Nat)
    (tj : Transform) (hj : ts.get? j = some tj) (hg : tj.groupId = none) :
    ∃ t', (runGroupSearch gid ts j).1.get? j = some t' ∧
      coreFields t' = coreFields tj ∧
      t'.groupId.isSome = true ∧
      (tj.indexInSentence = j → t'.indexInSentence = j) :=
  bfsAssign_head gid (ts.length * ts.length + ts.length + 1) ts [] [] j tj hj hg

/-- Overwriting position m does not change the first m elements. -/
theorem take_listModify_eq (f : α → α) :
    ∀ (m : Nat) (l : List α), (listModify f m l).take m = l.take m := by
  intro m l
  induction l generalizing m with
  | nil => cases m <;> rfl
  | cons a as ih =>
    cases m with
    | zero => rfl
    | succ m =>
      show a :: (listModify f m as).take m = a :: as.take m
      rw [ih m]

/-- One step of the per-transformation loop of setMetaData preserves the
initialization invariant. -/
theorem initStep_inv (si c0 len : Nat) (orig : List Token) (m : Nat) (st : SentInit)
    (hm : m < len) (hinv : InitInv si c0 len orig m st) :
    InitInv si c0 len orig (m + 1) (initStep si st m) := by
  obtain ⟨hlen, hcnt, hact, hall⟩ := hinv
  have hmlt : m < st.ts.length := by omega
  obtain ⟨t0, ht0⟩ : ∃ t0, st.ts.get? m = some t0 := ⟨_, List.get?_eq_get hmlt⟩
  have hT2idx : (defaultStatus (assignIdx si st.counter m t0)).indexInSentence = m := by
    rw [(defaultStatus_spec _).1]
    rfl
  have hT2tix : (defaultStatus (assignIdx si st.counter m t0)).transformIndex = c0 + m := by
    rw [(defaultStatus_spec _).2.1]
    exact hcnt
  have hT2si : (defaultStatus (assignIdx si st.counter m t0)).sentenceIndex = si := by
    rw [(defaultStatus_spec _).2.2.1]
    rfl
  have hT2status : (defaultStatus (assignIdx si st.counter m t0)).status.isSome = true :=
    (defaultStatus_spec _).2.2.2.2
  have hTS1m : (listModify (fun _ => defaultStatus (assignIdx si st.counter m t0))
      m st.ts).get? m = some (defaultStatus (assignIdx si st.counter m t0)) := by
    rw [get?_listModify, if_pos rfl, ht0]
    rfl
  have hTS1k : ∀ k, k ≠ m →
      (listModify (fun _ => defaultStatus (assignIdx si st.counter m t0))
        m st.ts).get? k = st.ts.get? k := by
    intro k hk
    rw [get?_listModify, if_neg hk]
  have hTS1len : (listModify (fun _ => defaultStatus (assignIdx si st.counter m t0))
      m st.ts).length = st.ts.length := length_listModify _ _ _
  simp only [initStep, ht0]
  by_cases hgid : (defaultStatus (assignIdx si st.counter m t0)).groupId = none
  · rw [if_pos hgid]
    obtain ⟨T2x, hT2xget, hT2xcore, hT2xg, hT2xidx⟩ :=
      runGroupSearch_head st.groups.length
        (listModify (fun _ => defaultStatus (assignIdx si st.counter m t0)) m st.ts) m
        (defaultStatus (assignIdx si st.counter m t0)) hTS1m hgid
    have hTSlen : (runGroupSearch st.groups.length
        (listModify (fun _ => defaultStatus (assignIdx si st.counter m t0)) m st.ts)
        m).1.length = len := by
      rw [runGroupSearch_length, hTS1len]
      exact hlen
    have hmap : ((runGroupSearch st.groups.length
        (listModify (fun _ => defaultStatus (assignIdx si st.counter m t0)) m st.ts)
        m).1.take m).map replayFields = (st.ts.take m).map replayFields := by
      apply List.ext
      intro k
      rw [List.get?_map, List.get?_map]
      by_cases hk : k < m
      · rw [List.get?_take hk, List.get?_take hk]
        have hklen : k < st.ts.length := by omega
        obtain ⟨u, hu⟩ : ∃ u, st.ts.get? k = some u := ⟨_, List.get?_eq_get hklen⟩
        obtain ⟨u', hu', hcore, -, -⟩ :=
          runGroupSearch_get? st.groups.length
            (listModify (fun _ => defaultStatus (assignIdx si st.counter m t0)) m st.ts)
            m k u (by rw [hTS1k k (by omega)]; exact hu)
        rw [hu, hu']
        simp only [Option.map_some']
        rw [replayFields_of_coreFields u u' hcore]
      · have h1 : ((runGroupSearch st.groups.length
            (listModify (fun _ => defaultStatus (assignIdx si st.counter m t0)) m st.ts)
            m).1.take m).get? k = none := by
          rw [List.get?_eq_none, List.length_take]
          omega
        have h2 : (st.ts.take m).get? k = none := by
          rw [List.get?_eq_none, List.length_take]
          omega
        rw [h1, h2]
    refine ⟨hTSlen, by show st.counter + 1 = c0 + (m + 1); omega, ?_, ?_⟩
    · rw [replayList_take_succ _ _ m T2x hT2xget]
      rw [replayList_congr orig (st.ts.take m) _ hmap]
      rw [updateActiveTokens_congr _ _ T2x
        (replayFields_of_coreFields _ _ hT2xcore)]
      rw [hact]
    · intro k t hk hkt
      by_cases hkm : k = m
      · subst hkm
        rw [hT2xget] at hkt
        obtain rfl : T2x = t := (Option.some.injEq _ _).mp hkt
        have hcf := coreFields_eq _ _ hT2xcore
        refine ⟨hT2xidx hT2idx, ?_, ?_, ?_, hT2xg⟩
        · rw [hcf.2.2.2.2.2.2.1]
          exact hT2tix
        · rw [hcf.2.2.2.2.2.2.2]
          exact hT2si
        · rw [hcf.2.2.1]
          exact hT2status
      · have hklt : k < m := by omega
        have hklen : k < st.ts.length := by omega
        obtain ⟨u, hu⟩ : ∃ u, st.ts.get? k = some u := ⟨_, List.get?_eq_get hklen⟩
        obtain ⟨hidx, htix, hsi, hstat, hgrp⟩ := hall k u hklt hu
        obtain ⟨u', hu', hcore, hgmono, hidx'⟩ :=
          runGroupSearch_get? st.groups.length
            (listModify (fun _ => defaultStatus (assignIdx si st.counter m t0)) m st.ts)
            m k u (by rw [hTS1k k hkm]; exact hu)
        rw [hu'] at hkt
        obtain rfl : u' = t := (Option.some.injEq _ _).mp hkt
        have hcf := coreFields_eq _ _ hcore
        refine ⟨hidx' hidx, ?_, ?_, ?_, ?_⟩
        · rw [hcf.2.2.2.2.2.2.1]
          exact htix
        · rw [hcf.2.2.2.2.2.2.2]
          exact hsi
        · rw [hcf.2.2.1]
          exact hstat
        · obtain ⟨g, hg⟩ := Option.isSome_iff_exists.mp hgrp
          rw [hgmono g hg]
          rfl
  · rw [if_neg hgid]
    refine ⟨by rw [hTS1len]; exact hlen,
      by show st.counter + 1 = c0 + (m + 1); omega, ?_, ?_⟩
    · rw [replayList_take_succ _ _ m _ hTS1m, take_listModify_eq, hact]
    · intro k t hk hkt
      by_cases hkm : k = m
      · subst hkm
        rw [hTS1m] at hkt
        obtain rfl := (Option.some.injEq _ _).mp hkt
        exact ⟨hT2idx, hT2tix, hT2si, hT2status, Option.ne_none_iff_isSome.mp hgid⟩
      · rw [hTS1k k hkm] at hkt
        exact hall k t (by omega) hkt

/-- Recomputing availability does not change the replay fields. -/
theorem map_replayFields_setAvailOne (a : List Token) :
    ∀ (ts : List Transform),
      (ts.map (setAvailOne a)).map replayFields = ts.map replayFields := by
  intro ts
  induction ts with
  | nil => rfl
  | cons t ts ih =>
    simp only [List.map_cons]
    rw [ih]
    rfl

/-- One pass of initSentence yields an initialized sentence; the counter
advances by the number of transformations, and the lengths and the original
tokens are preserved. -/
theorem initSentence_initialized (si c : Nat) (s : Sentence) :
    initializedSentence si c (initSentence si c s).1 ∧
    (initSentence si c s).1.transformations.length = s.transformations.length ∧
    (initSentence si c s).1.originalSentence = s.originalSentence ∧
    (initSentence si c s).2 = c + s.transformations.length := by
  obtain ⟨hlen, hcnt, hact, hall⟩ :
      InitInv si c s.transformations.length s.originalSentence
        s.transformations.length
        ((List.range s.transformations.length).foldl (initStep si)
          { ts := s.transformations, active := s.originalSentence,
            groups := [], counter := c }) := by
    refine foldl_range_inv (initStep si)
      (InitInv si c s.transformations.length s.originalSentence)
      s.transformations.length _
      ⟨rfl, rfl, by simp [replayList], fun k t hk _ => absurd hk (by omega)⟩
      (fun m b hm hb => initStep_inv si c _ _ m b hm hb)
  have htake : ((List.range s.transformations.length).foldl (initStep si)
      { ts := s.transformations, active := s.originalSentence,
        groups := [], counter := c }).ts.take s.transformations.length =
      ((List.range s.transformations.length).foldl (initStep si)
        { ts := s.transformations, active := s.originalSentence,
          groups := [], counter := c }).ts := by
    have h := List.take_length
      ((List.range s.transformations.length).foldl (initStep si)
        { ts := s.transformations, active := s.originalSentence,
          groups := [], counter := c }).ts
    rw [hlen] at h
    exact h
  have hactive : ((List.range s.transformations.length).foldl (initStep si)
      { ts := s.transformations, active := s.originalSentence,
        groups := [], counter := c }).active =
      replayList s.originalSentence
        (((List.range s.transformations.length).foldl (initStep si)
          { ts := s.transformations, active := s.originalSentence,
            groups := [], counter := c }).ts.map
          (setAvailOne ((List.range s.transformations.length).foldl (initStep si)
            { ts := s.transformations, active := s.originalSentence,
              groups := [], counter := c }).active)) := by
    rw [hact, htake]
    exact (replayList_congr _ _ _ (map_replayFields_setAvailOne _ _)).symm
  refine ⟨⟨rfl, hactive, ?_⟩, ?_, rfl, hcnt⟩
  · intro k t hkt
    rw [show (initSentence si c s).1.transformations =
        ((List.range s.transformations.length).foldl (initStep si)
          { ts := s.transformations, active := s.originalSentence,
            groups := [], counter := c }).ts.map
          (setAvailOne ((List.range s.transformations.length).foldl (initStep si)
            { ts := s.transformations, active := s.originalSentence,
              groups := [], counter := c }).active) from rfl] at hkt
    rw [List.get?_map] at hkt
    cases hu : ((List.range s.transformations.length).foldl (initStep si)
        { ts := s.transformations, active := s.originalSentence,
          groups := [], counter := c }).ts.get? k with
    | none => rw [hu] at hkt; exact Option.noConfusion hkt
    | some u =>
      rw [hu] at hkt
      obtain rfl : setAvailOne _ u = t := (Option.some.injEq _ _).mp hkt
      have hklen : k < s.transformations.length := by
        have := List.get?_mem hu
        have hk2 : k < ((List.range s.transformations.length).foldl (initStep si)
            { ts := s.transformations, active := s.originalSentence,
              groups := [], counter := c }).ts.length := by
          by_contra hge
          rw [List.get?_eq_none.2 (by omega)] at hu
          exact Option.noConfusion hu
        omega
      obtain ⟨hidx, htix, hsi, hstat, hgrp⟩ := hall k u hklen hu
      exact ⟨hidx, htix, hsi, hstat, hgrp, rfl⟩
  · show (((List.range s.transformations.length).foldl (initStep si)
      { ts := s.transformations, active := s.originalSentence,
        groups := [], counter := c }).ts.map _).length = s.transformations.length
    rw [List.length_map]
    exact hlen

/-- On an already initialized sentence, a second initSentence pass changes
nothing except the group table, which it resets to empty: every transform
already carries its indices, a status and a group, so the loop rewrites
every field with the value it holds and never opens a group search. -/
theorem initSentence_idem (si c : Nat) (s : Sentence)
    (hinit : initializedSentence si c s) :
    initSentence si c s = ({ s with groups := [] }, c + s.transformations.length) := by
  obtain ⟨hsi, hrep, hall⟩ := hinit
  obtain ⟨hts, hactive, hgroups, hcounter⟩ :
      (fun (m : Nat) (st : SentInit) =>
        st.ts = s.transformations ∧
        st.active = replayList s.originalSentence (s.transformations.take m) ∧
        st.groups = ([] : List (List Nat)) ∧
        st.counter = c + m) s.transformations.length
        ((List.range s.transformations.length).foldl (initStep si)
          { ts := s.transformations, active := s.originalSentence,
            groups := [], counter := c }) := by
    refine foldl_range_inv (initStep si)
      (fun (m : Nat) (st : SentInit) =>
        st.ts = s.transformations ∧
        st.active = replayList s.originalSentence (s.transformations.take m) ∧
        st.groups = ([] : List (List Nat)) ∧
        st.counter = c + m)
      s.transformations.length _
      ⟨rfl, by simp [replayList], rfl, rfl⟩ ?_
    intro m st hm hst
    obtain ⟨hts, hactive, hgroups, hcounter⟩ := hst
    have hmlt : m < st.ts.length := by rw [hts]; exact hm
    obtain ⟨t0, ht0⟩ : ∃ t0, st.ts.get? m = some t0 := ⟨_, List.get?_eq_get hmlt⟩
    have ht0s : s.transformations.get? m = some t0 := by rw [← hts]; exact ht0
    obtain ⟨hidx, htix, hsi0, hstat, hgrp, -⟩ := hall m t0 ht0s
    have hdef : defaultStatus (assignIdx si st.counter m t0) = t0 := by
      rw [assignIdx_self si st.counter m t0 (by rw [htix, hcounter]) hidx hsi0]
      exact defaultStatus_of_isSome t0 hstat
    have hmod : listModify (fun _ => defaultStatus (assignIdx si st.counter m t0))
        m st.ts = st.ts := by
      rw [hdef]
      exact listModify_const_self m st.ts t0 ht0
    have hc2 : updateActiveTokens st.active (defaultStatus (assignIdx si st.counter m t0)) =
        replayList s.originalSentence (s.transformations.take (m + 1)) := by
      rw [hdef, hactive]
      exact (replayList_take_succ _ _ m t0 ht0s).symm
    have hc4 : st.counter + 1 = c + (m + 1) := by omega
    simp only [initStep, ht0]
    rw [if_neg (by rw [hdef]; exact Option.ne_none_iff_isSome.mpr hgrp)]
    exact ⟨hmod.trans hts, hc2, hgroups, hc4⟩
  have hactiveS : ((List.range s.transformations.length).foldl (initStep si)
      { ts := s.transformations, active := s.originalSentence,
        groups := [], counter := c }).active = s.activeTokens := by
    rw [hactive, List.take_length]
    exact hrep.symm
  have htsS : ((List.range s.transformations.length).foldl (initStep si)
      { ts := s.transformations, active := s.originalSentence,
        groups := [], counter := c }).ts.map
      (setAvailOne ((List.range s.transformations.length).foldl (initStep si)
        { ts := s.transformations, active := s.originalSentence,
          groups := [], counter := c }).active) = s.transformations := by
    rw [hactiveS, hts]
    exact map_setAvailOne_self s.transformations s.activeTokens
      (fun k t hk => (hall k t hk).2.2.2.2.2)
  have h1 : (initSentence si c s).1 = { s with groups := [] } := by
    show Sentence.mk s.originalSentence
        ((List.range s.transformations.length).foldl (initStep si)
          { ts := s.transformations, active := s.originalSentence,
            groups := [], counter := c }).active
        (((List.range s.transformations.length).foldl (initStep si)
          { ts := s.transformations, active := s.originalSentence,
            groups := [], counter := c }).ts.map
          (setAvailOne ((List.range s.transformations.length).foldl (initStep si)
            { ts := s.transformations, active := s.originalSentence,
              groups := [], counter := c }).active))
        ((List.range s.transformations.length).foldl (initStep si)
          { ts := s.transformations, active := s.originalSentence,
            groups := [], counter := c }).groups
        si = { s with groups := [] }
    rw [htsS, hactiveS, hgroups, ← hsi]
  have h2 : (initSentence si c s).2 = c + s.transformations.length := hcounter
  calc initSentence si c s
      = ((initSentence si c s).1, (initSentence si c s).2) := rfl
    _ = ({ s with groups := [] }, c + s.transformations.length) := by rw [h1, h2]

/-- Running the sentence loop of setMetaData a second time over its own
output reproduces it except that every group table is emptied. -/
theorem initSentences_idem :
    ∀ (ss : List Sentence) (c si : Nat),
      initSentences c si (initSentences c si ss) =
        (initSentences c si ss).map (fun s => { s with groups := [] }) := by
  intro ss
  induction ss with
  | nil => intro c si; rfl
  | cons s rest ih =>
    intro c si
    obtain ⟨hinit, hlen, -, hcnt⟩ := initSentence_initialized si c s
    have hidem := initSentence_idem si c (initSentence si c s).1 hinit
    show initSentences c si
        ((initSentence si c s).1 :: initSentences (initSentence si c s).2 (si + 1) rest) = _
    rw [initSentences]
    rw [hidem]
    have hc2 : c + (initSentence si c s).1.transformations.length = (initSentence si c s).2 := by
      rw [hlen, hcnt]
    rw [hc2]
    rw [ih (initSentence si c s).2 (si + 1)]
    rfl

/-- Every sentence produced by the sentence loop of setMetaData has every
transformation's cached isAvailable equal to the presence of its affected
tokens in that sentence's active stream: the last step of initSentence
recomputes the flag from the final active stream. -/
theorem initSentences_avail :
    ∀ (ss : List Sentence) (c si0 k : Nat) (s : Sentence),
      (initSentences c si0 ss).get? k = some s →
      ∀ (ti : Nat) (t : Transform), s.transformations.get? ti = some t →
      t.isAvailable = tokensArePresent t.tokensAffected s.activeTokens := by
  intro ss
  induction ss with
  | nil =>
    intro c si0 k s hs
    simp [initSentences] at hs
  | cons s0 rest ih =>
    intro c si0 k s hs ti t ht
    rw [initSentences] at hs
    cases k with
    | zero =>
      simp only [List.get?] at hs
      obtain rfl : (initSentence si0 c s0).1 = s := by simpa using hs
      simp only [initSentence, List.get?_map] at ht
      obtain ⟨t0, _h0, rfl⟩ : ∃ t0,
          ((List.range s0.transformations.length).foldl (initStep si0)
            { ts := s0.transformations, active := s0.originalSentence,
              groups := [], counter := c }).ts.get? ti = some t0 ∧
          t = setAvailOne ((List.range s0.transformations.length).foldl (initStep si0)
            { ts := s0.transformations, active := s0.originalSentence,
              groups := [], counter := c }).active t0 := by
        cases hx : ((List.range s0.transformations.length).foldl (initStep si0)
            { ts := s0.transformations, active := s0.originalSentence,
              groups := [], counter := c }).ts.get? ti with
        | none => rw [hx] at ht; simp at ht
        | some t0 => rw [hx] at ht; exact ⟨t0, rfl, by simpa using ht.symm⟩
      simp [initSentence, setAvailOne]
    | succ k =>
      exact ih _ _ _ _ (by simpa using hs) ti t ht

/-- Claim C3 (amended): immediately after initialization, every
transformation's cached isAvailable flag equals
tokensArePresent(tokensAffected, activeTokens) for its owning sentence.
After accept, reject or undo operations the equality can fail: the actioned
transformation's flag is set deliberately (reject and accept force false,
undo forces true) and the group-local refresh misses overlapping
transformations placed in other groups. -/
theorem c3_available_matches_presence_after_init
    (d : Doc) (si ti : Nat) (s : Sentence) (t : Transform)
    (hs : (setMetaData d).rulesApplied.get? si = some s)
    (ht : s.transformations.get? ti = some t) :
    t.isAvailable = tokensArePresent t.tokensAffected s.activeTokens := by
  exact initSentences_avail d.rulesApplied 0 0 si s (by simpa [setMetaData] using hs) ti t ht

/-- Witness for claim C3 at the concrete document docRej. -/
theorem c3_witness :
    ∃ s t, (setMetaData docRej).rulesApplied.get? 0 = some s ∧
      s.transformations.get? 0 = some t ∧
      t.isAvailable = tokensArePresent t.tokensAffected s.activeTokens := by
  refine ⟨_, _, rfl, rfl, ?_⟩
  exact c3_available_matches_presence_after_init docRej 0 0 _ _ rfl rfl

/-- Claim C5 (amended): a second setMetaData call on an already-initialized
document result is not a complete no-op: it leaves activeTokens,
sentenceIndex, groupId, transformIndex, indexInSentence, status,
isAvailable and hasMeta at the values the first call produced, but it
resets every sentence's groups table to empty (every transformation already
carries a groupId, so no group search runs and nothing is ever added to the
freshly cleared tables). Through interactiveEditor the hasMeta guard
prevents the second call entirely. -/
theorem c5_second_init_only_clears_groups (d : Doc) :
    setMetaData (setMetaData d) = clearGroups (setMetaData d) := by
  show ({ rulesApplied := initSentences 0 0 (initSentences 0 0 d.rulesApplied),
          hasMeta := true } : Doc) =
    ({ rulesApplied := (initSentences 0 0 d.rulesApplied).map
        (fun s => { s with groups := [] }),
       hasMeta := true } : Doc)
  rw [initSentences_idem]

/-- Claim C6 (amended): for every transformation whose cached isAvailable
flag is true and whose affected tokens really form a contiguous run of the
owning sentence's active stream (with pairwise distinct token ids, and the
inserted tokens nonempty with fresh, pairwise distinct ids, as the data
model requires of well-formed documents), acceptCorrection followed by
resetCorrection succeeds and restores the sentence's activeTokens to the
pre-accept value, sets the transformation's status to clean and its
isAvailable back to its pre-accept value (true). The presence condition is
forced by the counterexample: a merely cached true flag can be stale, and
then the reset fails and the status stays accepted. Comment-only
transformations (hasReplacement false) are covered without any condition on
the stream. -/
theorem c6_accept_then_reset_restores
    (d : Doc) (si ti : Nat) (s : Sentence) (t : Transform) (B A : List Token)
    (hs : d.rulesApplied.get? si = some s)
    (ht : s.transformations.get? ti = some t)
    (hav : t.isAvailable = true)
    (hcase : t.hasReplacement = false ∨
      (s.activeTokens = B ++ t.tokensAffected ++ A ∧
       t.tokensAffected ≠ [] ∧ t.tokensAdded ≠ [] ∧
       (tokenIds (B ++ t.tokensAffected ++ A)).Nodup ∧
       (tokenIds t.tokensAdded).Nodup ∧
       (∀ i ∈ tokenIds t.tokensAdded, i ∉ tokenIds B ∧ i ∉ tokenIds A))) :
    ∃ d1 d2,
      acceptCorrection d si ti = (d1, true) ∧
      resetCorrection d1 si ti = (d2, true) ∧
      (d2.rulesApplied.get? si).map Sentence.activeTokens = some s.activeTokens ∧
      d2.getTransform? si ti =
        some { t with status := some Status.clean, isAvailable := true } ∧
      Transform.isAvailable
        { t with status := some Status.clean, isAvailable := true } = t.isAvailable := by
  have hs' : d.rulesApplied[si]? = some s := by simpa using hs
  have ht' : s.transformations[ti]? = some t := by simpa using ht
  have hacc : acceptCorrection d si ti =
      (modifySentence d si (fun sen =>
        setTransformAt (makeTransform sen ti) ti
          (fun tr => { tr with status := some Status.accepted })), true) := by
    simp [acceptCorrection, hs, hs', ht, ht', hav]
  have hgetAcc : (setTransformAt (makeTransform s ti) ti
      (fun tr => { tr with status := some Status.accepted })).transformations.get? ti =
      some { t with isAvailable := false, status := some Status.accepted } := by
    show (listModify _ ti (makeTransform s ti).transformations).get? ti = _
    rw [get?_listModify, if_pos rfl, (makeTransform_spec s ti t ht).2.2]
    rfl
  have hactAcc : (setTransformAt (makeTransform s ti) ti
      (fun tr => { tr with status := some Status.accepted })).activeTokens =
      (if t.hasReplacement then
        replaceTokens s.activeTokens t.tokensAffected t.tokensAdded
       else s.activeTokens) :=
    (makeTransform_spec s ti t ht).1
  -- the two case-dependent facts: the reset guard holds, and undoing the
  -- transform restores the pre-accept stream
  have hkey : canUndoTransform
        (setTransformAt (makeTransform s ti) ti
          (fun tr => { tr with status := some Status.accepted }))
        { t with isAvailable := false, status := some Status.accepted } = true ∧
      (undoTransform (setTransformAt (makeTransform s ti) ti
          (fun tr => { tr with status := some Status.accepted })) ti).activeTokens =
        s.activeTokens := by
    by_cases hrep : t.hasReplacement = true
    · rcases hcase with hF | ⟨hdec, hXne, hYne, hnd, hYnd, hfresh⟩
      · rw [hF] at hrep
        exact absurd hrep (by simp)
      · have hsplice : replaceTokens s.activeTokens t.tokensAffected t.tokensAdded =
            B ++ t.tokensAdded ++ A := by
          rw [hdec]
          exact replaceTokens_decomp B _ A _ hXne hnd
        have hactAcc' : (setTransformAt (makeTransform s ti) ti
            (fun tr => { tr with status := some Status.accepted })).activeTokens =
            B ++ t.tokensAdded ++ A := by
          rw [hactAcc, if_pos hrep, hsplice]
        have hnd' : (tokenIds (B ++ t.tokensAdded ++ A)).Nodup :=
          nodup_tokenIds_replace B _ A _ hnd hYnd hfresh
        have hpres : tokensArePresent t.tokensAdded
            (setTransformAt (makeTransform s ti) ti
              (fun tr => { tr with status := some Status.accepted })).activeTokens = true := by
          rw [hactAcc']
          exact tokensArePresent_decomp B _ A hnd'
        refine ⟨?_, ?_⟩
        · simp [canUndoTransform, isAccepted, hpres]
        · have hback : replaceTokens
              (setTransformAt (makeTransform s ti) ti
                (fun tr => { tr with status := some Status.accepted })).activeTokens
              t.tokensAdded t.tokensAffected = s.activeTokens := by
            rw [hactAcc', hdec]
            exact replaceTokens_decomp B _ A _ hYne hnd'
          have hspec := (undoTransform_spec _ ti _ hgetAcc).1
          rw [hspec, if_pos (by simpa using hrep)]
          exact hback
    · have hF : t.hasReplacement = false := by
        cases hb : t.hasReplacement
        · rfl
        · exact absurd hb hrep
      refine ⟨?_, ?_⟩
      · simp [canUndoTransform, hF]
      · have hspec := (undoTransform_spec _ ti _ hgetAcc).1
        rw [hspec, if_neg (by simp [hF])]
        rw [hactAcc, if_neg (by simp [hF])]
  have hd1get : (modifySentence d si (fun sen =>
      setTransformAt (makeTransform sen ti) ti
        (fun tr => { tr with status := some Status.accepted }))).rulesApplied.get? si =
      some (setTransformAt (makeTransform s ti) ti
        (fun tr => { tr with status := some Status.accepted })) :=
    get?_modifySentence_self d si _ s hs
  have hd1get' : (modifySentence d si (fun sen =>
      setTransformAt (makeTransform sen ti) ti
        (fun tr => { tr with status := some Status.accepted }))).rulesApplied[si]? =
      some (setTransformAt (makeTransform s ti) ti
        (fun tr => { tr with status := some Status.accepted })) := by
    simpa using hd1get
  have hgetAcc' : (setTransformAt (makeTransform s ti) ti
      (fun tr => { tr with status := some Status.accepted })).transformations[ti]? =
      some { t with isAvailable := false, status := some Status.accepted } := by
    simpa using hgetAcc
  have hreset : resetCorrection (modifySentence d si (fun sen =>
      setTransformAt (makeTransform sen ti) ti
        (fun tr => { tr with status := some Status.accepted }))) si ti =
      (modifySentence (modifySentence d si (fun sen =>
        setTransformAt (makeTransform sen ti) ti
          (fun tr => { tr with status := some Status.accepted }))) si (fun sen =>
        setTransformAt (undoTransform sen ti) ti
          (fun tr => { tr with status := some Status.clean })), true) := by
    simp [resetCorrection, hd1get, hd1get', hgetAcc, hgetAcc', hkey.1]
  have hd2get : (modifySentence (modifySentence d si (fun sen =>
      setTransformAt (makeTransform sen ti) ti
        (fun tr => { tr with status := some Status.accepted }))) si (fun sen =>
      setTransformAt (undoTransform sen ti) ti
        (fun tr => { tr with status := some Status.clean }))).rulesApplied.get? si =
      some (setTransformAt (undoTransform (setTransformAt (makeTransform s ti) ti
        (fun tr => { tr with status := some Status.accepted })) ti) ti
        (fun tr => { tr with status := some Status.clean })) :=
    get?_modifySentence_self _ si _ _ hd1get
  have hd2trans : (setTransformAt (undoTransform (setTransformAt (makeTransform s ti) ti
      (fun tr => { tr with status := some Status.accepted })) ti) ti
      (fun tr => { tr with status := some Status.clean })).transformations.get? ti =
      some { t with status := some Status.clean, isAvailable := true } := by
    show (listModify _ ti (undoTransform _ ti).transformations).get? ti = _
    rw [get?_listModify, if_pos rfl, (undoTransform_spec _ ti _ hgetAcc).2.2]
    rfl
  refine ⟨_, _, hacc, hreset, ?_, ?_, ?_⟩
  · rw [hd2get]
    show some (setTransformAt (undoTransform _ ti) ti _).activeTokens = _
    have : (setTransformAt (undoTransform (setTransformAt (makeTransform s ti) ti
        (fun tr => { tr with status := some Status.accepted })) ti) ti
        (fun tr => { tr with status := some Status.clean })).activeTokens =
        (undoTransform (setTransformAt (makeTransform s ti) ti
          (fun tr => { tr with status := some Status.accepted })) ti).activeTokens := rfl
    rw [this, hkey.2]
  · show ((modifySentence _ si _).rulesApplied.get? si).bind _ = _
    rw [hd2get]
    show (setTransformAt (undoTransform _ ti) ti _).transformations.get? ti = _
    exact hd2trans
  · rw [hav]

/-- Witness for claim C6 at the initialized docRej: the single
transformation affects token 1 (the whole stream, so B and A are empty) and
inserts the fresh token 5. -/
theorem c6_witness :
    ∃ d1 d2,
      acceptCorrection (setMetaData docRej) 0 0 = (d1, true) ∧
      resetCorrection d1 0 0 = (d2, true) ∧
      (d2.rulesApplied.get? 0).map Sentence.activeTokens = some [tok 1 "a"] ∧
      d2.getTransform? 0 0 =
        some { tokensAffected := [tok 1 "a"], tokensAdded := [tok 5 "b"],
               status := some Status.clean, isAvailable := true,
               hasReplacement := true, isSuggestion := false, groupId := some 0,
               sentenceIndex := 0, indexInSentence := 0, transformIndex := 0 } := by
  obtain ⟨d1, d2, h1, h2, h3, h4, -⟩ :=
    c6_accept_then_reset_restores (setMetaData docRej) 0 0 _ _ [] []
      rfl rfl (by decide) (Or.inr (by decide))
  exact ⟨d1, d2, h1, h2, by simpa using h3, by simpa using h4⟩

/-- Claim C7 (amended): a clean transformation that has a replacement cannot
be undone: canUndoTransform returns false on it, and resetCorrection on it
returns false and leaves the document exactly as it was. The restriction to
transformations with a replacement is forced by the counterexample: a clean
comment-only transformation (hasReplacement false) is trivially undoable. -/
theorem c7_clean_replacement_transform_not_undoable
    (d : Doc) (si ti : Nat) (s : Sentence) (t : Transform)
    (hs : d.rulesApplied.get? si = some s)
    (ht : s.transformations.get? ti = some t)
    (hclean : t.status = some Status.clean)
    (hrepl : t.hasReplacement = true) :
    canUndoTransform s t = false ∧ resetCorrection d si ti = (d, false) := by
  have hcu : canUndoTransform s t = false := by
    simp [canUndoTransform, isAccepted, isRejected, hclean, hrepl]
  refine ⟨hcu, ?_⟩
  have hs' : d.rulesApplied[si]? = some s := by simpa using hs
  have ht' : s.transformations[ti]? = some t := by simpa using ht
  simp [resetCorrection, hs', ht', hcu]

/-- Witness for claim C7 at the initialized docRej, whose single
transformation is clean and has a replacement. -/
theorem c7_witness :
    ∃ s t, (setMetaData docRej).rulesApplied.get? 0 = some s ∧
      s.transformations.get? 0 = some t ∧
      canUndoTransform s t = false ∧
      resetCorrection (setMetaData docRej) 0 0 = (setMetaData docRej, false) := by
  refine ⟨_, _, rfl, rfl, ?_⟩
  exact c7_clean_replacement_transform_not_undoable (setMetaData docRej) 0 0 _ _
    rfl rfl (by decide) (by decide)


/-- findIdx? finds an element satisfying the predicate, at an offset from
its accumulator argument. -/
theorem findIdx?_some_spec {α : Type} (p : α → Bool) :
    ∀ (l : List α) (strt n : Nat), List.findIdx? p l strt = some n →
      ∃ k x, n = strt + k ∧ l.get? k = some x ∧ p x = true := by
  intro l
  induction l with
  | nil => intro strt n h; simp [List.findIdx?] at h
  | cons a l ih =>
    intro strt n h
    rw [List.findIdx?_cons] at h
    by_cases hp : p a = true
    · rw [if_pos hp] at h
      obtain rfl : strt = n := (Option.some.injEq _ _).mp h
      exact ⟨0, a, by omega, rfl, hp⟩
    · rw [if_neg hp] at h
      obtain ⟨k, x, rfl, hget, hx⟩ := ih (strt + 1) n h
      exact ⟨k + 1, x, by omega, by simpa using hget, hx⟩

/-- findIdx? returns the first position whose element satisfies the
predicate. -/
theorem findIdx?_eq_some_of {α : Type} (p : α → Bool) :
    ∀ (l : List α) (strt n : Nat) (x : α), l.get? n = some x → p x = true →
      (∀ j y, j < n → l.get? j = some y → p y = false) →
      List.findIdx? p l strt = some (strt + n) := by
  intro l
  induction l with
  | nil => intro strt n x hx; intro _ _; simp at hx
  | cons a l ih =>
    intro strt n x hx hp hmin
    rw [List.findIdx?_cons]
    cases n with
    | zero =>
      obtain rfl : a = x := by simpa using hx
      rw [if_pos hp]
      simp
    | succ n =>
      have ha : p a = false := hmin 0 a (by omega) rfl
      rw [if_neg (by simp [ha])]
      have := ih (strt + 1) n x (by simpa using hx) hp
        (fun j y hj hy => hmin (j + 1) y (by omega) (by simpa using hy))
      rw [this]
      congr 1
      omega

/-- findTokenIdx is the negative sentinel or a genuine position of the
findIdx? search. -/
theorem findTokenIdx_cases (l : List Token) (x : Nat) :
    findTokenIdx l x = -1 ∨ ∃ m : Nat, findTokenIdx l x = (m : Int) ∧
      l.findIdx? (fun a => a.id == x) = some m := by
  rw [findTokenIdx]
  cases hf : l.findIdx? (fun a => a.id == x) with
  | none => exact Or.inl rfl
  | some m => exact Or.inr ⟨m, rfl, rfl⟩

/-- A non-negative findTokenIdx points at a token carrying the searched
id. -/
theorem findTokenIdx_get (l : List Token) (x : Nat) (m : Nat)
    (h : findTokenIdx l x = (m : Int)) :
    ∃ tk, l.get? m = some tk ∧ tk.id = x := by
  rcases findTokenIdx_cases l x with hc | ⟨m2, hc, hf⟩
  · rw [hc] at h; exfalso; omega
  · rw [hc] at h
    obtain rfl : m2 = m := by exact_mod_cast h
    obtain ⟨k, tk, hk, hget, htk⟩ := findIdx?_some_spec _ l 0 m2 hf
    obtain rfl : k = m2 := by omega
    exact ⟨tk, hget, by simpa using htk⟩

/-- When the contiguity loop of tokensArePresent succeeds, the listed
tokens are found at consecutive positions: there is a start such that the
k-th token's id is found exactly at start + k. -/
theorem tokensArePresentAux_forward :
    ∀ (xs full : List Token) (lst : Int), tokensArePresentAux full xs lst = true →
      xs ≠ [] →
      ∃ strt : Nat, (lst ≠ -1 → (strt : Int) = lst + 1) ∧
        ∀ k t, xs.get? k = some t →
          findTokenIdx full t.id = ((strt + k : Nat) : Int) := by
  intro xs
  induction xs with
  | nil => intro full lst _ hne; exact absurd rfl hne
  | cons t ts ih =>
    intro full lst h _
    rw [tokensArePresentAux] at h
    by_cases hcond : (findTokenIdx full t.id != -1 &&
        (lst == -1 || findTokenIdx full t.id == lst + 1)) = true
    · rw [if_pos hcond] at h
      have hcond2 := hcond
      rw [Bool.and_eq_true, bne_iff_ne] at hcond2
      obtain ⟨hne1, hor⟩ := hcond2
      rcases findTokenIdx_cases full t.id with hc | ⟨q, hq, -⟩
      · exact absurd hc hne1
      · have hfirst : lst ≠ -1 → (q : Int) = lst + 1 := by
          intro hlst
          rw [Bool.or_eq_true, beq_iff_eq, beq_iff_eq] at hor
          rcases hor with h1 | h1
          · exact absurd h1 hlst
          · rw [hq] at h1; omega
        by_cases hts : ts = []
        · subst hts
          refine ⟨q, hfirst, ?_⟩
          intro k u hk
          cases k with
          | zero =>
            obtain rfl : t = u := by simpa using hk
            simpa using hq
          | succ k => simp at hk
        · obtain ⟨strt2, hstart2, hpos⟩ := ih full (findTokenIdx full t.id) h hts
          rw [hq] at hstart2
          have hq1 : (strt2 : Int) = (q : Int) + 1 := hstart2 (by omega)
          have hs2 : strt2 = q + 1 := by omega
          refine ⟨q, hfirst, ?_⟩
          intro k u hk
          cases k with
          | zero =>
            obtain rfl : t = u := by simpa using hk
            simpa using hq
          | succ k =>
            rw [hpos k u (by simpa using hk)]
            congr 1
            omega
    · rw [if_neg hcond] at h
      exact absurd h (by simp)

/-- tokenIds distributes over append. -/
theorem tokenIds_append (xs ys : List Token) :
    tokenIds (xs ++ ys) = tokenIds xs ++ tokenIds ys := by
  rw [tokenIds, tokenIds, tokenIds, List.map_append]

/-- The defensive branch: replaceTokens leaves the stream unchanged when
the affected run is not present. -/
theorem replaceTokens_not_present (S aff add : List Token)
    (h : tokensArePresent aff S = false) : replaceTokens S aff add = S := by
  rw [replaceTokens.eq_def, h]
  rfl

/-- When tokensArePresent succeeds, the affected ids form a contiguous run
of the stream, and replaceTokens removes exactly that run and inserts the
added tokens in its place. -/
theorem replaceTokens_splice (S aff add : List Token) (hne : aff ≠ [])
    (hp : tokensArePresent aff S = true) :
    ∃ strt mid, S = S.take strt ++ mid ++ S.drop (strt + aff.length) ∧
      tokenIds mid = tokenIds aff ∧
      replaceTokens S aff add = S.take strt ++ add ++ S.drop (strt + aff.length) := by
  obtain ⟨strt, -, hpos⟩ := tokensArePresentAux_forward aff S (-1) hp hne
  have hfound : ∀ k u, aff.get? k = some u →
      ∃ tk, S.get? (strt + k) = some tk ∧ tk.id = u.id :=
    fun k u hk => findTokenIdx_get S u.id (strt + k) (hpos k u hk)
  obtain ⟨a, rest, rfl⟩ := List.exists_cons_of_ne_nil hne
  have hlast0 : (a :: rest).get? ((a :: rest).length - 1) =
      some ((a :: rest).getLast (by simp)) := by
    rw [List.getLast_eq_get]
    exact List.get?_eq_get _
  obtain ⟨tkl, htkl, -⟩ := hfound _ _ hlast0
  have hbound : strt + (a :: rest).length ≤ S.length := by
    have hlt : strt + ((a :: rest).length - 1) < S.length := by
      by_contra hge
      rw [List.get?_eq_none.2 (by omega)] at htkl
      exact Option.noConfusion htkl
    simp only [List.length_cons] at hlt ⊢
    omega
  refine ⟨strt, (S.drop strt).take (a :: rest).length, ?_, ?_, ?_⟩
  · conv_lhs => rw [← List.take_append_drop strt S]
    conv_lhs => rw [← List.take_append_drop (a :: rest).length (S.drop strt)]
    rw [List.drop_drop, List.append_assoc]
  · refine List.ext ?_
    intro k
    rw [tokenIds, tokenIds, List.get?_map, List.get?_map]
    by_cases hk : k < (a :: rest).length
    · have hmidk : ((S.drop strt).take (a :: rest).length).get? k =
          S.get? (strt + k) := by
        rw [List.get?_take hk, List.get?_drop]
      obtain ⟨u, hu⟩ : ∃ u, (a :: rest).get? k = some u := by
        cases hget : (a :: rest).get? k with
        | none => rw [List.get?_eq_none] at hget; omega
        | some u => exact ⟨u, rfl⟩
      obtain ⟨tk, htk, hid⟩ := hfound k u hu
      rw [hmidk, htk, hu]
      simp [hid]
    · have h1 : ((S.drop strt).take (a :: rest).length).get? k = none := by
        rw [List.get?_eq_none]
        rw [List.length_take, List.length_drop]
        omega
      have h2 : (a :: rest).get? k = none := by
        rw [List.get?_eq_none]
        omega
      rw [h1, h2]
  · rw [replaceTokens, hp]
    simp only [Bool.not_true, Bool.false_eq_true, if_false]
    obtain ⟨tk0, htk0, hid0⟩ := hfound 0 a rfl
    have hstart : findTokenIdx S a.id = ((strt : Nat) : Int) := by
      simpa using hpos 0 a rfl
    have hend : findTokenIdx S ((a :: rest).getLast (by simp)).id =
        ((strt + ((a :: rest).length - 1) : Nat) : Int) :=
      hpos _ _ hlast0
    rw [hstart, hend]
    have hcond : (((strt : Nat) : Int) != -1 &&
        (((strt + ((a :: rest).length - 1) : Nat) : Int) != -1 &&
          ((strt + ((a :: rest).length - 1) : Nat) : Int) ≥ ((strt : Nat) : Int))) =
        true := by
      simp
      omega
    rw [if_pos (by simpa using hcond)]
    have ht1 : ((strt : Nat) : Int).toNat = strt := by omega
    have ht2 : ((strt + ((a :: rest).length - 1) : Nat) : Int).toNat + 1 =
        strt + (a :: rest).length := by
      simp only [List.length_cons]
      omega
    rw [ht1, ht2]


/-- Indexed access to a Pairwise fact. -/
theorem pairwise_get? {α : Type} {R : α → α → Prop} {l : List α}
    (h : l.Pairwise R) {i j : Nat} (hij : i < j) {x y : α}
    (hx : l.get? i = some x) (hy : l.get? j = some y) : R x y := by
  rw [List.pairwise_iff_getElem] at h
  have hjlen : j < l.length := by
    by_contra hge
    rw [List.get?_eq_none.2 (by omega)] at hy
    exact Option.noConfusion hy
  have hilen : i < l.length := by omega
  have hr := h i j hilen hjlen hij
  rw [List.get?_eq_getElem?, List.getElem?_eq_getElem hilen] at hx
  rw [List.get?_eq_getElem?, List.getElem?_eq_getElem hjlen] at hy
  obtain rfl : l[i] = x := by simpa using hx
  obtain rfl : l[j] = y := by simpa using hy
  exact hr

/-- Every member is bounded by the foldr maximum. -/
theorem le_foldr_max : ∀ (l : List Nat) (x : Nat), x ∈ l → x ≤ l.foldr max 0 := by
  intro l
  induction l with
  | nil => intro x hx; simp at hx
  | cons a l ih =>
    intro x hx
    rw [List.foldr_cons]
    rcases List.mem_cons.1 hx with rfl | hx
    · exact Nat.le_max_left _ _
    · exact le_trans (ih x hx) (Nat.le_max_right _ _)

/-- The insertion bound is positive. -/
theorem addBound_pos (sh : List (List Nat × List Nat × Bool)) : 1 ≤ addBound sh :=
  Nat.le_add_left 1 _

/-- Every inserted run is shorter than the insertion bound. -/
theorem added_len_lt_addBound (sh : List (List Nat × List Nat × Bool))
    (a : Nat) (p : List Nat × List Nat × Bool) (ha : sh.get? a = some p) :
    p.2.1.length < addBound sh := by
  have hmem : p.2.1.length ∈ sh.map (fun q => q.2.1.length) :=
    List.mem_map_of_mem _ (List.get?_mem ha)
  exact Nat.lt_succ_of_le (le_foldr_max _ _ hmem)

/-- The weight of an id inserted by the transformation at position a. -/
theorem insWeight_added (orig : List Nat) (sh : List (List Nat × List Nat × Bool))
    (hWF : shapesWF orig sh) (a : Nat) (p : List Nat × List Nat × Bool)
    (ha : sh.get? a = some p) (y : Nat) (hy : y ∈ p.2.1) :
    insWeight sh y = addBound sh ^ (sh.length - a) := by
  have hfind : sh.findIdx? (fun q => decide (y ∈ q.2.1)) = some a := by
    have := findIdx?_eq_some_of (fun q => decide (y ∈ q.2.1)) sh 0 a p ha
      (by simpa using hy) ?_
    · simpa using this
    · intro j q hj hq
      have hpair := pairwise_get? hWF.2.2 hj hq ha
      simp only [decide_eq_false_iff_not]
      exact fun hmem => hpair.1 y hmem hy
  rw [insWeight, hfind]

/-- The weight of an affected id of the transformation at position a is at
least the bound times the weight of the ids that transformation inserts. -/
theorem insWeight_affected (orig : List Nat) (sh : List (List Nat × List Nat × Bool))
    (hWF : shapesWF orig sh) (a : Nat) (p : List Nat × List Nat × Bool)
    (ha : sh.get? a = some p) (x : Nat) (hx : x ∈ p.1) :
    addBound sh ^ (sh.length - a) * addBound sh ≤ insWeight sh x := by
  have halen : a < sh.length := by
    by_contra hge
    rw [List.get?_eq_none.2 (by omega)] at ha
    exact Option.noConfusion ha
  rw [insWeight]
  cases hf : sh.findIdx? (fun q => decide (x ∈ q.2.1)) with
  | none =>
    rw [← Nat.pow_succ]
    exact Nat.pow_le_pow_right (addBound_pos sh) (by omega)
  | some j =>
    obtain ⟨k, q, hk, hq, hqx⟩ := findIdx?_some_spec _ sh 0 j hf
    obtain rfl : k = j := by omega
    rw [decide_eq_true_eq] at hqx
    rcases Nat.lt_trichotomy k a with hja | hja | hja
    · rw [← Nat.pow_succ]
      exact Nat.pow_le_pow_right (addBound_pos sh) (by omega)
    · subst hja
      rw [ha] at hq
      obtain rfl : p = q := (Option.some.injEq _ _).mp hq
      exact absurd hx ((hWF.2.1 p (List.get?_mem ha)).2.2.1 x hqx)
    · exact absurd hx ((pairwise_get? hWF.2.2 hja ha hq).2 x hqx)

/-- Sum of a constant map. -/
theorem sum_map_const_weight {α : Type} (f : α → Nat) (w : Nat) :
    ∀ (l : List α), (∀ x ∈ l, f x = w) → (l.map f).sum = l.length * w := by
  intro l
  induction l with
  | nil => intro _; simp
  | cons a l ih =>
    intro h
    rw [List.map_cons, List.sum_cons, ih (fun x hx => h x (List.mem_cons_of_mem _ hx)),
      h a (List.mem_cons_self _ _), List.length_cons]
    ring

/-- The head is bounded by the mapped sum. -/
theorem head_le_sum_map {α : Type} (f : α → Nat) (a : α) (l : List α) :
    f a ≤ ((a :: l).map f).sum := by
  rw [List.map_cons, List.sum_cons]
  exact Nat.le_add_right _ _

/-- A mapped sum of zero-one values is bounded by the length. -/
theorem sum_map_le_length {α : Type} (f : α → Nat) :
    ∀ (l : List α), (∀ x ∈ l, f x ≤ 1) → (l.map f).sum ≤ l.length := by
  intro l
  induction l with
  | nil => intro _; simp
  | cons a l ih =>
    intro h
    rw [List.map_cons, List.sum_cons, List.length_cons]
    have h1 := h a (List.mem_cons_self _ _)
    have h2 := ih (fun x hx => h x (List.mem_cons_of_mem _ hx))
    omega

/-- The combined weight of the ids a replacement transformation inserts is
strictly below the combined weight of the ids it removes. -/
theorem spliceV_lt (orig : List Nat) (sh : List (List Nat × List Nat × Bool))
    (hWF : shapesWF orig sh) (a : Nat) (p : List Nat × List Nat × Bool)
    (ha : sh.get? a = some p) (hne : p.1 ≠ []) :
    streamV sh p.2.1 < streamV sh p.1 := by
  obtain ⟨x, aff, heq⟩ := List.exists_cons_of_ne_nil hne
  have hw : ∀ y ∈ p.2.1, insWeight sh y = addBound sh ^ (sh.length - a) :=
    fun y hy => insWeight_added orig sh hWF a p ha y hy
  have hpow : 0 < addBound sh ^ (sh.length - a) :=
    Nat.pos_pow_of_pos _ (addBound_pos sh)
  calc streamV sh p.2.1 = p.2.1.length * addBound sh ^ (sh.length - a) :=
        sum_map_const_weight _ _ _ hw
    _ < addBound sh * addBound sh ^ (sh.length - a) :=
        mul_lt_mul_of_pos_right (added_len_lt_addBound sh a p ha) hpow
    _ = addBound sh ^ (sh.length - a) * addBound sh := Nat.mul_comm _ _
    _ ≤ insWeight sh x :=
        insWeight_affected orig sh hWF a p ha x (by rw [heq]; exact List.mem_cons_self _ _)
    _ ≤ streamV sh p.1 := by
        rw [heq]
        exact head_le_sum_map _ _ _

/-- Pointwise comparison of natural sums. -/
theorem natsum_le_pointwise : ∀ (xs ys : List Nat), xs.length = ys.length →
    (∀ k x y, xs.get? k = some x → ys.get? k = some y → x ≤ y) →
    xs.sum ≤ ys.sum := by
  intro xs
  induction xs with
  | nil => intro ys _ _; simp
  | cons a xs ih =>
    intro ys hlen h
    cases ys with
    | nil => simp at hlen
    | cons b ys =>
      rw [List.sum_cons, List.sum_cons]
      have h0 : a ≤ b := h 0 a b rfl rfl
      have hrest := ih ys (by simpa using hlen)
        (fun k x y hx hy => h (k + 1) x y (by simpa using hx) (by simpa using hy))
      omega

/-- Pointwise comparison of natural sums, strict at one position. -/
theorem natsum_lt_pointwise : ∀ (xs ys : List Nat), xs.length = ys.length →
    (∀ k x y, xs.get? k = some x → ys.get? k = some y → x ≤ y) →
    ∀ (j x y : Nat), xs.get? j = some x → ys.get? j = some y → x < y →
    xs.sum < ys.sum := by
  intro xs
  induction xs with
  | nil => intro ys _ _ j x y hx _ _; simp at hx
  | cons a xs ih =>
    intro ys hlen h j x y hx hy hxy
    cases ys with
    | nil => simp at hlen
    | cons b ys =>
      rw [List.sum_cons, List.sum_cons]
      cases j with
      | zero =>
        obtain rfl : a = x := by simpa using hx
        obtain rfl : b = y := by simpa using hy
        have hrest := natsum_le_pointwise xs ys (by simpa using hlen)
          (fun k u v hu hv => h (k + 1) u v (by simpa using hu) (by simpa using hv))
        omega
      | succ j =>
        have h0 : a ≤ b := h 0 a b rfl rfl
        have := ih ys (by simpa using hlen)
          (fun k u v hu hv => h (k + 1) u v (by simpa using hu) (by simpa using hv))
          j x y (by simpa using hx) (by simpa using hy) hxy
        omega


/-- insertedBy is monotone in the recorded positions. -/
theorem insertedBy_mono (sh : List (List Nat × List Nat × Bool)) (H H2 : List Nat)
    (hsub : ∀ b ∈ H, b ∈ H2) (x : Nat) :
    insertedBy sh H x → insertedBy sh H2 x := by
  intro h
  obtain ⟨b, hb, q, hq, hx⟩ := h
  exact ⟨b, hsub b hb, q, hq, hx⟩

/-- In a duplicate-free three-part list, an element of the middle part
occurs in neither of the outer parts. -/
theorem nodup_middle_disjoint {xs ys zs : List Nat} (h : (xs ++ ys ++ zs).Nodup) :
    ∀ y ∈ ys, y ∉ xs ∧ y ∉ zs := by
  intro y hy
  rw [List.append_assoc, List.nodup_append] at h
  obtain ⟨hx, hyz, hdisj⟩ := h
  rw [List.nodup_append] at hyz
  exact ⟨fun hyx => hdisj hyx (List.mem_append_left _ hy),
    fun hyzz => hyz.2.2 hy hyzz⟩

/-- Firing the splice of a replacement transformation whose affected run is
present preserves the stream invariant, recording the fired position. -/
theorem spliceStep (orig : List Nat) (sh : List (List Nat × List Nat × Bool))
    (H : List Nat) (S aff add : List Token) (a : Nat)
    (hWF : shapesWF orig sh)
    (hinv : streamInvH orig sh H (tokenIds S))
    (ha : sh.get? a = some (tokenIds aff, tokenIds add, true))
    (hp : tokensArePresent aff S = true) :
    streamInvH orig sh (H ++ [a]) (tokenIds (replaceTokens S aff add)) := by
  obtain ⟨hndS, hC, hA, hE⟩ := hinv
  obtain ⟨hAddNd, hAddOrig, hAddSelf, hRne⟩ :=
    hWF.2.1 _ (List.get?_mem ha)
  have hidsne : tokenIds aff ≠ [] := hRne rfl
  have haffne : aff ≠ [] := by
    intro h0; rw [h0] at hidsne; exact hidsne rfl
  obtain ⟨strt, mid, hSdec, hmidids, hres⟩ := replaceTokens_splice S aff add haffne hp
  rw [hres]
  have hSids : tokenIds S =
      tokenIds (S.take strt) ++ tokenIds mid ++ tokenIds (S.drop (strt + aff.length)) := by
    conv_lhs => rw [hSdec]
    rw [tokenIds_append, tokenIds_append]
  have hresids : tokenIds (S.take strt ++ add ++ S.drop (strt + aff.length)) =
      tokenIds (S.take strt) ++ tokenIds add ++ tokenIds (S.drop (strt + aff.length)) := by
    rw [tokenIds_append, tokenIds_append]
  have haffsub : ∀ x ∈ tokenIds aff, x ∈ tokenIds S := by
    intro x hx
    rw [hSids]
    exact List.mem_append_left _ (List.mem_append_right _ (hmidids ▸ hx))
  have hanotH : a ∉ H := by
    intro haH
    obtain ⟨x, hx⟩ := List.exists_mem_of_ne_nil _ hidsne
    exact hA a haH _ ha x hx (haffsub x hx)
  have huniq : ∀ x ∈ tokenIds add, insertedBy sh H x → False := by
    intro x hx hins
    obtain ⟨w, hw, r, hr, hxr⟩ := hins
    by_cases hwa : w = a
    · subst hwa
      exact hanotH hw
    · rcases Nat.lt_trichotomy w a with hlt | hcontra | hgt
      · exact (pairwise_get? hWF.2.2 hlt hr ha).1 x hxr hx
      · exact hwa hcontra
      · exact (pairwise_get? hWF.2.2 hgt ha hr).1 x hx hxr
  have haddfresh : ∀ x ∈ tokenIds add, x ∉ tokenIds S := by
    intro x hx hxS
    rcases hC x hxS with hxo | hins
    · exact hAddOrig x hx hxo
    · exact huniq x hx hins
  have hndres : (tokenIds (S.take strt ++ add ++ S.drop (strt + aff.length))).Nodup := by
    refine nodup_tokenIds_replace (S.take strt) mid (S.drop (strt + aff.length)) add
      (by rw [← hSdec]; exact hndS) hAddNd ?_
    intro i hi
    constructor
    · intro hiB
      exact haddfresh i hi (by rw [hSids]; exact List.mem_append_left _ (List.mem_append_left _ hiB))
    · intro hiA
      exact haddfresh i hi (by rw [hSids]; exact List.mem_append_right _ hiA)
  have hsubH : ∀ b ∈ H, b ∈ H ++ [a] := fun b hb => List.mem_append_left _ hb
  have hamem : a ∈ H ++ [a] := List.mem_append_right _ (List.mem_singleton.2 rfl)
  refine ⟨hndres, ?_, ?_, ?_⟩
  · intro x hx
    rw [hresids] at hx
    rcases List.mem_append.1 hx with hx1 | hxA
    · rcases List.mem_append.1 hx1 with hxB | hxadd
      · have hxS : x ∈ tokenIds S := by
          rw [hSids]; exact List.mem_append_left _ (List.mem_append_left _ hxB)
        rcases hC x hxS with hxo | hins
        · exact Or.inl hxo
        · exact Or.inr (insertedBy_mono sh H _ hsubH x hins)
      · exact Or.inr ⟨a, hamem, _, ha, hxadd⟩
    · have hxS : x ∈ tokenIds S := by
        rw [hSids]; exact List.mem_append_right _ hxA
      rcases hC x hxS with hxo | hins
      · exact Or.inl hxo
      · exact Or.inr (insertedBy_mono sh H _ hsubH x hins)
  · intro b hb q hq x hx hxres
    rw [hresids] at hxres
    rcases List.mem_append.1 hxres with hx1 | hxA
    · rcases List.mem_append.1 hx1 with hxB | hxadd
      · rcases List.mem_append.1 hb with hbH | hba
        · exact hA b hbH q hq x hx
            (by rw [hSids]; exact List.mem_append_left _ (List.mem_append_left _ hxB))
        · obtain rfl : b = a := List.mem_singleton.1 hba
          rw [ha] at hq
          obtain rfl : (tokenIds aff, tokenIds add, true) = q :=
            (Option.some.injEq _ _).mp hq
          have hxmid : x ∈ tokenIds mid := hmidids ▸ hx
          have := nodup_middle_disjoint (hSids ▸ hndS) x hxmid
          exact this.1 hxB
      · rcases List.mem_append.1 hb with hbH | hba
        · rcases hE b hbH q hq x hx with hxo | hins
          · exact hAddOrig x hxadd hxo
          · exact huniq x hxadd hins
        · obtain rfl : b = a := List.mem_singleton.1 hba
          rw [ha] at hq
          obtain rfl : (tokenIds aff, tokenIds add, true) = q :=
            (Option.some.injEq _ _).mp hq
          exact hAddSelf x hxadd hx
    · rcases List.mem_append.1 hb with hbH | hba
      · exact hA b hbH q hq x hx
          (by rw [hSids]; exact List.mem_append_right _ hxA)
      · obtain rfl : b = a := List.mem_singleton.1 hba
        rw [ha] at hq
        obtain rfl : (tokenIds aff, tokenIds add, true) = q :=
          (Option.some.injEq _ _).mp hq
        have hxmid : x ∈ tokenIds mid := hmidids ▸ hx
        have := nodup_middle_disjoint (hSids ▸ hndS) x hxmid
        exact this.2 hxA
  · intro b hb q hq x hx
    rcases List.mem_append.1 hb with hbH | hba
    · rcases hE b hbH q hq x hx with hxo | hins
      · exact Or.inl hxo
      · exact Or.inr (insertedBy_mono sh H _ hsubH x hins)
    · obtain rfl : b = a := List.mem_singleton.1 hba
      rw [ha] at hq
      obtain rfl : (tokenIds aff, tokenIds add, true) = q :=
        (Option.some.injEq _ _).mp hq
      rcases hC x (haffsub x hx) with hxo | hins
      · exact Or.inl hxo
      · exact Or.inr (insertedBy_mono sh H _ hsubH x hins)


/-- The replay loop of setMetaData preserves the stream invariant: every
recovered accepted transformation it replays either fires its splice (and
is recorded) or leaves the stream unchanged. -/
theorem replay_inv (orig : List Nat) (sh : List (List Nat × List Nat × Bool))
    (hWF : shapesWF orig sh) :
    ∀ (post : List Transform) (k : Nat) (act : List Token) (H : List Nat),
      (∀ m t, post.get? m = some t → sh.get? (k + m) = some (shape t)) →
      streamInvH orig sh H (tokenIds act) →
      ∃ H2, streamInvH orig sh H2 (tokenIds (post.foldl updateActiveTokens act)) := by
  intro post
  induction post with
  | nil => intro k act H _ hinv; exact ⟨H, hinv⟩
  | cons t rest ih =>
    intro k act H hsh hinv
    rw [List.foldl_cons]
    have hshift : ∀ m u, rest.get? m = some u → sh.get? (k + 1 + m) = some (shape u) := by
      intro m u hu
      have := hsh (m + 1) u (by simpa using hu)
      rwa [show k + (m + 1) = k + 1 + m from by omega] at this
    by_cases hacc : (t.hasReplacement && isAccepted t) = true
    · rw [updateActiveTokens, if_pos hacc]
      by_cases hp : tokensArePresent t.tokensAffected act = true
      · have hrepl : t.hasReplacement = true := ((Bool.and_eq_true _ _).mp hacc).1
        have hsha : sh.get? k = some (shape t) := by
          have := hsh 0 t rfl
          simpa using this
        have hshape : shape t = (tokenIds t.tokensAffected, tokenIds t.tokensAdded, true) := by
          rw [shape, hrepl]
        rw [hshape] at hsha
        exact ih (k + 1) _ (H ++ [k]) hshift
          (spliceStep orig sh H act t.tokensAffected t.tokensAdded k hWF hinv hsha hp)
      · rw [replaceTokens_not_present act t.tokensAffected t.tokensAdded
          (by simpa using hp)]
        exact ih (k + 1) act H hshift hinv
    · rw [updateActiveTokens, if_neg hacc]
      exact ih (k + 1) act H hshift hinv

/-- The replay of a whole transformation list over the original tokens
satisfies the stream invariant. -/
theorem replayList_inv (orig : List Token) (ts : List Transform)
    (hWF : shapesWF (tokenIds orig) (ts.map shape)) :
    ∃ H, streamInvH (tokenIds orig) (ts.map shape) H (tokenIds (replayList orig ts)) := by
  refine replay_inv (tokenIds orig) (ts.map shape) hWF ts 0 orig [] ?_ ?_
  · intro m t hm
    rw [Nat.zero_add, List.get?_map, hm]
    rfl
  · refine ⟨hWF.1, fun x hx => Or.inl hx, ?_, ?_⟩
    · intro b hb
      exact absurd hb (List.not_mem_nil b)
    · intro b hb
      exact absurd hb (List.not_mem_nil b)

/-- A sentence of the initialized list is the one-sentence initialization
of the corresponding raw sentence at some counter value. -/
theorem initSentences_get? :
    ∀ (l : List Sentence) (c si k : Nat) (s : Sentence),
      (initSentences c si l).get? k = some s →
      ∃ c0 s0, l.get? k = some s0 ∧ s = (initSentence (si + k) c0 s0).1 := by
  intro l
  induction l with
  | nil => intro c si k s h; simp [initSentences] at h
  | cons a l ih =>
    intro c si k s h
    rw [initSentences] at h
    cases k with
    | zero =>
      refine ⟨c, a, rfl, ?_⟩
      rw [Nat.add_zero]
      exact ((Option.some.injEq _ _).mp (by simpa using h)).symm
    | succ k =>
      obtain ⟨c0, s0, h1, h2⟩ := ih _ (si + 1) k s (by simpa using h)
      exact ⟨c0, s0, h1, by rwa [show si + 1 + k = si + (k + 1) from by omega] at h2⟩

/-- Every sentence of an initialized document has its active stream equal
to the replay of its transformations over its original tokens. -/
theorem setMetaData_active_replay (d : Doc) (si : Nat) (s : Sentence)
    (hs : (setMetaData d).rulesApplied.get? si = some s) :
    s.activeTokens = replayList s.originalSentence s.transformations := by
  have hs2 : (initSentences 0 0 d.rulesApplied).get? si = some s := hs
  obtain ⟨c0, s0, -, rfl⟩ := initSentences_get? d.rulesApplied 0 0 si s hs2
  exact ((initSentence_initialized (0 + si) c0 s0).1).2.1

/-- An initialized document that satisfies the data model satisfies the
stream invariant in every sentence. -/
theorem docInv_init (d : Doc) (hWF : docWF (setMetaData d)) : docInv (setMetaData d) := by
  intro s hsmem
  obtain ⟨si, hs⟩ := List.mem_iff_get?.mp hsmem
  have hrep := setMetaData_active_replay d si s hs
  show ∃ H, streamInvH (tokenIds s.originalSentence) (s.transformations.map shape) H
    (tokenIds s.activeTokens)
  rw [hrep]
  exact replayList_inv s.originalSentence s.transformations (hWF s hsmem)


/-- Membership in enumFrom determines the lookup. -/
theorem mem_enumFrom_get? {α : Type} :
    ∀ (l : List α) (n : Nat) (q : Nat × α), q ∈ l.enumFrom n →
      n ≤ q.1 ∧ l.get? (q.1 - n) = some q.2 := by
  intro l
  induction l with
  | nil => intro n q hq; simp [List.enumFrom] at hq
  | cons a l ih =>
    intro n q hq
    rw [List.enumFrom] at hq
    rcases List.mem_cons.1 hq with rfl | hq
    · refine ⟨le_refl _, ?_⟩
      simp
    · obtain ⟨h1, h2⟩ := ih (n + 1) q hq
      refine ⟨by omega, ?_⟩
      rw [show q.1 - n = (q.1 - (n + 1)) + 1 from by omega]
      simpa using h2

/-- A member of the flattened transformation list is the transformation at
its recorded address. -/
theorem mem_flattenedWithAddr (d : Doc) (e : (Nat × Nat) × Transform)
    (he : e ∈ flattenedWithAddr d) :
    ∃ s, d.rulesApplied.get? e.1.1 = some s ∧
      s.transformations.get? e.1.2 = some e.2 := by
  rw [flattenedWithAddr, List.mem_flatMap] at he
  obtain ⟨ps, hps, he⟩ := he
  rw [List.mem_map] at he
  obtain ⟨qt, hqt, rfl⟩ := he
  have h1 := mem_enumFrom_get? d.rulesApplied 0 ps (by simpa [List.enum] using hps)
  have h2 := mem_enumFrom_get? ps.2.transformations 0 qt (by simpa [List.enum] using hqt)
  refine ⟨ps.2, ?_, ?_⟩
  · simpa using h1.2
  · simpa using h2.2

/-- What a successful getNextTransform with suggestion skipping
guarantees: the returned transformation sits at its address, is flagged
available, and is not a suggestion. -/
theorem getNext_spec (inr : Bool) (d : Doc) (e : (Nat × Nat) × Transform)
    (h : getNextTransformE inr true d = some e) :
    (∃ s, d.rulesApplied.get? e.1.1 = some s ∧
      s.transformations.get? e.1.2 = some e.2) ∧
    e.2.isAvailable = true ∧ e.2.isSuggestion = false := by
  rw [getNextTransformE, if_pos rfl] at h
  have hmem := List.mem_of_find?_eq_some h
  have hpred := List.find?_some h
  rw [availableWithAddr, List.mem_filter] at hmem
  obtain ⟨hflat, hcond⟩ := hmem
  rw [Bool.and_eq_true] at hcond
  exact ⟨mem_flattenedWithAddr d e hflat, hcond.1, by simpa using hpred⟩

/-- The setIsAvailable fold preserves the length. -/
theorem length_setAvailFold (act : List Token) :
    ∀ (members : List Nat) (ts : List Transform),
      (members.foldl (fun ts i => listModify (setAvailOne act) i ts) ts).length =
        ts.length := by
  intro members
  induction members with
  | nil => intro ts; rfl
  | cons i rest ih =>
    intro ts
    rw [List.foldl_cons, ih, length_listModify]

/-- updateTokenGroup preserves the length of the transformation list. -/
theorem length_updateTokenGroup (s : Sentence) (ti : Nat) :
    (updateTokenGroup s ti).transformations.length = s.transformations.length := by
  rw [updateTokenGroup]
  split
  · rfl
  · split
    · rfl
    · exact length_setAvailFold s.activeTokens _ s.transformations

/-- makeTransform preserves the length of the transformation list. -/
theorem length_makeTransform (s : Sentence) (ti : Nat) :
    (makeTransform s ti).transformations.length = s.transformations.length := by
  unfold makeTransform
  split
  · rfl
  next t heq =>
    show (listModify _ ti (if t.hasReplacement then _ else s).transformations).length = _
    rw [length_listModify]
    split
    · exact length_updateTokenGroup _ _
    · rfl

/-- A slot other than the accepted one is either untouched by
makeTransform or has had only its availability recomputed from the spliced
stream. -/
theorem makeTransform_get?_ne (s : Sentence) (ti k : Nat) (t : Transform)
    (ht : s.transformations.get? ti = some t) (hk : k ≠ ti) :
    (makeTransform s ti).transformations.get? k = s.transformations.get? k ∨
    (makeTransform s ti).transformations.get? k =
      (s.transformations.get? k).map
        (setAvailOne (replaceTokens s.activeTokens t.tokensAffected t.tokensAdded)) := by
  unfold makeTransform
  split
  next heq => rw [ht] at heq; exact Option.noConfusion heq
  next t2 heq =>
    rw [ht] at heq
    obtain rfl : t = t2 := (Option.some.injEq _ _).mp heq
    by_cases hrep : t.hasReplacement = true
    · rw [if_pos hrep]
      show (listModify _ ti (updateTokenGroup _ ti).transformations).get? k = _ ∨
        (listModify _ ti (updateTokenGroup _ ti).transformations).get? k = _
      rw [get?_listModify, if_neg hk]
      rcases get?_updateTokenGroup
          { s with activeTokens := replaceTokens s.activeTokens t.tokensAffected t.tokensAdded }
          ti k with hcase | hcase
      · exact Or.inl hcase
      · exact Or.inr hcase
    · rw [if_neg hrep]
      show (listModify _ ti s.transformations).get? k = _ ∨
        (listModify _ ti s.transformations).get? k = _
      rw [get?_listModify, if_neg hk]
      exact Or.inl rfl

/-- Without a replacement, makeTransform leaves every other slot
untouched. -/
theorem makeTransform_get?_ne_norepl (s : Sentence) (ti k : Nat) (t : Transform)
    (ht : s.transformations.get? ti = some t) (hk : k ≠ ti)
    (hrep : t.hasReplacement = false) :
    (makeTransform s ti).transformations.get? k = s.transformations.get? k := by
  unfold makeTransform
  split
  next heq => rfl
  next t2 heq =>
    rw [ht] at heq
    obtain rfl : t = t2 := (Option.some.injEq _ _).mp heq
    rw [if_neg (by simp [hrep])]
    show (listModify _ ti s.transformations).get? k = _
    rw [get?_listModify, if_neg hk]


/-- What a successful acceptCorrection does to the document, slot by
slot. -/
theorem accept_spec (d : Doc) (si ti : Nat) (s : Sentence) (t : Transform)
    (hs : d.rulesApplied.get? si = some s) (ht : s.transformations.get? ti = some t)
    (hav : t.isAvailable = true) :
    ∃ s',
      (acceptCorrection d si ti).1.rulesApplied.get? si = some s' ∧
      (∀ k, k ≠ si →
        (acceptCorrection d si ti).1.rulesApplied.get? k = d.rulesApplied.get? k) ∧
      (acceptCorrection d si ti).1.rulesApplied.length = d.rulesApplied.length ∧
      s'.originalSentence = s.originalSentence ∧
      s'.activeTokens = (if t.hasReplacement then
          replaceTokens s.activeTokens t.tokensAffected t.tokensAdded
        else s.activeTokens) ∧
      s'.transformations.length = s.transformations.length ∧
      s'.transformations.get? ti =
        some { t with isAvailable := false, status := some Status.accepted } ∧
      (∀ k, k ≠ ti → s'.transformations.get? k = s.transformations.get? k ∨
        s'.transformations.get? k = (s.transformations.get? k).map
          (setAvailOne (replaceTokens s.activeTokens t.tokensAffected t.tokensAdded))) ∧
      (t.hasReplacement = false → ∀ k, k ≠ ti →
        s'.transformations.get? k = s.transformations.get? k) := by
  have hs2 : d.rulesApplied[si]? = some s := by simpa using hs
  have ht2 : s.transformations[ti]? = some t := by simpa using ht
  have hacc : acceptCorrection d si ti =
      (modifySentence d si (fun sen =>
        setTransformAt (makeTransform sen ti) ti
          (fun tr => { tr with status := some Status.accepted })), true) := by
    simp [acceptCorrection, hs, hs2, ht, ht2, hav]
  refine ⟨setTransformAt (makeTransform s ti) ti
      (fun tr => { tr with status := some Status.accepted }),
      ?_, ?_, ?_, ?_, ?_, ?_, ?_, ?_, ?_⟩
  · rw [hacc]
    exact get?_modifySentence_self d si _ s hs
  · intro k hk
    rw [hacc]
    show (listModify _ si d.rulesApplied).get? k = _
    rw [get?_listModify, if_neg hk]
  · rw [hacc]
    show (listModify _ si d.rulesApplied).length = _
    rw [length_listModify]
  · exact (makeTransform_spec s ti t ht).2.1
  · exact (makeTransform_spec s ti t ht).1
  · show (listModify _ ti (makeTransform s ti).transformations).length = _
    rw [length_listModify]
    exact length_makeTransform s ti
  · show (listModify _ ti (makeTransform s ti).transformations).get? ti = _
    rw [get?_listModify, if_pos rfl, (makeTransform_spec s ti t ht).2.2]
    rfl
  · intro k hk
    show (listModify _ ti (makeTransform s ti).transformations).get? k = _ ∨
      (listModify _ ti (makeTransform s ti).transformations).get? k = _
    rw [get?_listModify, if_neg hk]
    exact makeTransform_get?_ne s ti k t ht hk
  · intro hrep k hk
    show (listModify _ ti (makeTransform s ti).transformations).get? k = _
    rw [get?_listModify, if_neg hk]
    exact makeTransform_get?_ne_norepl s ti k t ht hk hrep

/-- An accept changes no edit shape. -/
theorem accept_shapes (s s' : Sentence) (t : Transform) (ti : Nat)
    (ht : s.transformations.get? ti = some t)
    (hti : s'.transformations.get? ti =
      some { t with isAvailable := false, status := some Status.accepted })
    (hne : ∀ k, k ≠ ti → s'.transformations.get? k = s.transformations.get? k ∨
      s'.transformations.get? k = (s.transformations.get? k).map
        (setAvailOne (replaceTokens s.activeTokens t.tokensAffected t.tokensAdded))) :
    s'.transformations.map shape = s.transformations.map shape := by
  refine List.ext ?_
  intro k
  rw [List.get?_map, List.get?_map]
  by_cases hk : k = ti
  · subst hk
    rw [hti, ht]
    rfl
  · rcases hne k hk with h | h
    · rw [h]
    · rw [h]
      cases s.transformations.get? k <;> rfl

/-- streamV distributes over append. -/
theorem streamV_append (sh : List (List Nat × List Nat × Bool)) (xs ys : List Nat) :
    streamV sh (xs ++ ys) = streamV sh xs + streamV sh ys := by
  rw [streamV, streamV, streamV, List.map_append, List.sum_append]

/-- sentenceV depends only on the shapes and the stream ids. -/
theorem sentenceV_congr (s s' : Sentence)
    (hsh : s'.transformations.map shape = s.transformations.map shape)
    (hact : tokenIds s'.activeTokens = tokenIds s.activeTokens) :
    sentenceV s' = sentenceV s := by
  rw [sentenceV, sentenceV, hsh, hact]

/-- A fired splice strictly decreases the weight of the sentence. -/
theorem sentenceV_splice_lt (s s' : Sentence) (ti : Nat) (t : Transform)
    (hswf : sentenceWF s) (ht : s.transformations.get? ti = some t)
    (hrep : t.hasReplacement = true)
    (hp : tokensArePresent t.tokensAffected s.activeTokens = true)
    (hsh : s'.transformations.map shape = s.transformations.map shape)
    (hact : s'.activeTokens =
      replaceTokens s.activeTokens t.tokensAffected t.tokensAdded) :
    sentenceV s' < sentenceV s := by
  have hmem : shape t ∈ s.transformations.map shape :=
    List.mem_map_of_mem shape (List.get?_mem ht)
  have hne : (shape t).1 ≠ [] := (hswf.2.1 _ hmem).2.2.2 hrep
  have haffne : t.tokensAffected ≠ [] := by
    intro h0
    apply hne
    show tokenIds t.tokensAffected = []
    rw [h0]
    rfl
  obtain ⟨strt, mid, hSdec, hmid, hres⟩ :=
    replaceTokens_splice s.activeTokens t.tokensAffected t.tokensAdded haffne hp
  have hkey : streamV (s.transformations.map shape) (tokenIds t.tokensAdded) <
      streamV (s.transformations.map shape) (tokenIds mid) := by
    rw [hmid]
    exact spliceV_lt (tokenIds s.originalSentence) _ hswf ti (shape t)
      (by rw [List.get?_map, ht]; rfl) hne
  rw [sentenceV, sentenceV, hsh, hact, hres]
  conv_rhs => rw [hSdec]
  simp only [tokenIds_append, streamV_append]
  omega

/-- phiT values are zero or one. -/
theorem phiT_le_one (act : List Token) (t : Transform) : phiT act t ≤ 1 := by
  rw [phiT]
  split
  · exact le_refl 1
  · exact Nat.zero_le 1

/-- psiT values are zero or one. -/
theorem psiT_le_one (t : Transform) : psiT t ≤ 1 := by
  rw [psiT]
  split
  · exact le_refl 1
  · exact Nat.zero_le 1

/-- The sentence counts are bounded by the number of transformations. -/
theorem sentencePhi_le_length (s : Sentence) :
    sentencePhi s ≤ s.transformations.length :=
  sum_map_le_length _ _ (fun x _ => phiT_le_one s.activeTokens x)

theorem sentencePsi_le_length (s : Sentence) :
    sentencePsi s ≤ s.transformations.length :=
  sum_map_le_length _ _ (fun x _ => psiT_le_one x)

/-- The document counts are bounded by the number of transformations. -/
theorem docPhi_le_docN (d : Doc) : docPhi d ≤ docN d := by
  rw [docPhi, docN]
  refine natsum_le_pointwise _ _ (by rw [List.length_map, List.length_map]) ?_
  intro k x y hx hy
  rw [List.get?_map] at hx hy
  cases hsk : d.rulesApplied.get? k with
  | none => rw [hsk] at hx; exact Option.noConfusion hx
  | some sk =>
    rw [hsk] at hx hy
    obtain rfl : sentencePhi sk = x := by simpa using hx
    obtain rfl : sk.transformations.length = y := by simpa using hy
    exact sentencePhi_le_length sk

theorem docPsi_le_docN (d : Doc) : docPsi d ≤ docN d := by
  rw [docPsi, docN]
  refine natsum_le_pointwise _ _ (by rw [List.length_map, List.length_map]) ?_
  intro k x y hx hy
  rw [List.get?_map] at hx hy
  cases hsk : d.rulesApplied.get? k with
  | none => rw [hsk] at hx; exact Option.noConfusion hx
  | some sk =>
    rw [hsk] at hx hy
    obtain rfl : sentencePsi sk = x := by simpa using hx
    obtain rfl : sk.transformations.length = y := by simpa using hy
    exact sentencePsi_le_length sk

/-- Refreshing a slot's availability from the same stream never raises its
phiT value. -/
theorem phiT_setAvailOne_le (act : List Token) (u : Transform) :
    phiT act (setAvailOne act u) ≤ phiT act u := by
  rw [phiT, phiT]
  show (if (tokensArePresent u.tokensAffected act ||
      tokensArePresent u.tokensAffected act) = true then 1 else 0) ≤ _
  cases hpre : tokensArePresent u.tokensAffected act with
  | false => simp
  | true => simp

/-- A mapped document sum is unchanged when only one sentence changes and
its value is unchanged. -/
theorem doc_sum_eq (f : Sentence → Nat) (d d2 : Doc) (si : Nat) (s s' : Sentence)
    (hs : d.rulesApplied.get? si = some s)
    (hs' : d2.rulesApplied.get? si = some s')
    (hoth : ∀ k, k ≠ si → d2.rulesApplied.get? k = d.rulesApplied.get? k)
    (hval : f s' = f s) :
    (d2.rulesApplied.map f).sum = (d.rulesApplied.map f).sum := by
  have hmap : d2.rulesApplied.map f = d.rulesApplied.map f := by
    refine List.ext ?_
    intro k
    rw [List.get?_map, List.get?_map]
    by_cases hk : k = si
    · subst hk
      rw [hs, hs']
      simp [hval]
    · rw [hoth k hk]
  rw [hmap]

/-- A mapped document sum does not increase when only one sentence changes
and its value does not increase. -/
theorem doc_sum_le (f : Sentence → Nat) (d d2 : Doc) (si : Nat) (s s' : Sentence)
    (hlen : d2.rulesApplied.length = d.rulesApplied.length)
    (hs : d.rulesApplied.get? si = some s)
    (hs' : d2.rulesApplied.get? si = some s')
    (hoth : ∀ k, k ≠ si → d2.rulesApplied.get? k = d.rulesApplied.get? k)
    (hval : f s' ≤ f s) :
    (d2.rulesApplied.map f).sum ≤ (d.rulesApplied.map f).sum := by
  refine natsum_le_pointwise _ _
    (by rw [List.length_map, List.length_map, hlen]) ?_
  intro k x y hx hy
  rw [List.get?_map] at hx hy
  by_cases hk : k = si
  · subst hk
    rw [hs'] at hx
    rw [hs] at hy
    obtain rfl : f s' = x := by simpa using hx
    obtain rfl : f s = y := by simpa using hy
    exact hval
  · rw [hoth k hk] at hx
    rw [hx] at hy
    exact le_of_eq ((Option.some.injEq _ _).mp hy)

/-- A mapped document sum strictly decreases when only one sentence changes
and its value strictly decreases. -/
theorem doc_sum_lt (f : Sentence → Nat) (d d2 : Doc) (si : Nat) (s s' : Sentence)
    (hlen : d2.rulesApplied.length = d.rulesApplied.length)
    (hs : d.rulesApplied.get? si = some s)
    (hs' : d2.rulesApplied.get? si = some s')
    (hoth : ∀ k, k ≠ si → d2.rulesApplied.get? k = d.rulesApplied.get? k)
    (hval : f s' < f s) :
    (d2.rulesApplied.map f).sum < (d.rulesApplied.map f).sum := by
  refine natsum_lt_pointwise _ _
    (by rw [List.length_map, List.length_map, hlen]) ?_ si (f s') (f s) ?_ ?_ hval
  · intro k x y hx hy
    rw [List.get?_map] at hx hy
    by_cases hk : k = si
    · subst hk
      rw [hs'] at hx
      rw [hs] at hy
      obtain rfl : f s' = x := by simpa using hx
      obtain rfl : f s = y := by simpa using hy
      exact le_of_lt hval
    · rw [hoth k hk] at hx
      rw [hx] at hy
      exact le_of_eq ((Option.some.injEq _ _).mp hy)
  · rw [List.get?_map, hs']
    rfl
  · rw [List.get?_map, hs]
    rfl


/-- A defensive accept (flag set, run absent) strictly decreases the
available-or-present count of its sentence. -/
theorem sentencePhi_defensive_lt (s s' : Sentence) (ti : Nat) (t : Transform)
    (ht : s.transformations.get? ti = some t) (hav : t.isAvailable = true)
    (hp : tokensArePresent t.tokensAffected s.activeTokens = false)
    (hact : s'.activeTokens = s.activeTokens)
    (hlen : s'.transformations.length = s.transformations.length)
    (hti : s'.transformations.get? ti =
      some { t with isAvailable := false, status := some Status.accepted })
    (hne : ∀ k, k ≠ ti → s'.transformations.get? k = s.transformations.get? k ∨
      s'.transformations.get? k = (s.transformations.get? k).map
        (setAvailOne s.activeTokens)) :
    sentencePhi s' < sentencePhi s := by
  have h1 : phiT s.activeTokens
      { t with isAvailable := false, status := some Status.accepted } = 0 := by
    rw [phiT]
    show (if (false || tokensArePresent t.tokensAffected s.activeTokens) = true
      then 1 else 0) = 0
    rw [hp]
    rfl
  have h2 : phiT s.activeTokens t = 1 := by
    rw [phiT, hav]
    rfl
  rw [sentencePhi, sentencePhi, hact]
  refine natsum_lt_pointwise _ _
    (by rw [List.length_map, List.length_map, hlen]) ?_ ti
    (phiT s.activeTokens { t with isAvailable := false, status := some Status.accepted })
    (phiT s.activeTokens t) ?_ ?_ (by omega)
  · intro k x y hx hy
    rw [List.get?_map] at hx hy
    by_cases hk : k = ti
    · subst hk
      rw [hti] at hx
      rw [ht] at hy
      obtain rfl : phiT s.activeTokens
          { t with isAvailable := false, status := some Status.accepted } = x := by
        simpa using hx
      obtain rfl : phiT s.activeTokens t = y := by simpa using hy
      omega
    · rcases hne k hk with h | h
      · rw [h] at hx
        rw [hx] at hy
        exact le_of_eq ((Option.some.injEq _ _).mp hy)
      · rw [h] at hx
        cases hsk : s.transformations.get? k with
        | none => rw [hsk] at hx; exact Option.noConfusion hx
        | some u =>
          rw [hsk] at hx hy
          obtain rfl : phiT s.activeTokens (setAvailOne s.activeTokens u) = x := by
            simpa using hx
          obtain rfl : phiT s.activeTokens u = y := by simpa using hy
          exact phiT_setAvailOne_le s.activeTokens u
  · rw [List.get?_map, hti]
    rfl
  · rw [List.get?_map, ht]
    rfl

/-- An accept of a comment-only transformation never raises the
available-or-present count of its sentence. -/
theorem sentencePhi_norepl_le (s s' : Sentence) (ti : Nat) (t : Transform)
    (ht : s.transformations.get? ti = some t) (hav : t.isAvailable = true)
    (hact : s'.activeTokens = s.activeTokens)
    (hlen : s'.transformations.length = s.transformations.length)
    (hti : s'.transformations.get? ti =
      some { t with isAvailable := false, status := some Status.accepted })
    (hne : ∀ k, k ≠ ti → s'.transformations.get? k = s.transformations.get? k) :
    sentencePhi s' ≤ sentencePhi s := by
  have h2 : phiT s.activeTokens t = 1 := by
    rw [phiT, hav]
    rfl
  rw [sentencePhi, sentencePhi, hact]
  refine natsum_le_pointwise _ _
    (by rw [List.length_map, List.length_map, hlen]) ?_
  intro k x y hx hy
  rw [List.get?_map] at hx hy
  by_cases hk : k = ti
  · subst hk
    rw [hti] at hx
    rw [ht] at hy
    obtain rfl : phiT s.activeTokens
        { t with isAvailable := false, status := some Status.accepted } = x := by
      simpa using hx
    obtain rfl : phiT s.activeTokens t = y := by simpa using hy
    have hb := phiT_le_one s.activeTokens
      { t with isAvailable := false, status := some Status.accepted }
    omega
  · rw [hne k hk] at hx
    rw [hx] at hy
    exact le_of_eq ((Option.some.injEq _ _).mp hy)

/-- An accept of a flagged comment-only transformation strictly decreases
the flagged comment-only count of its sentence. -/
theorem sentencePsi_norepl_lt (s s' : Sentence) (ti : Nat) (t : Transform)
    (ht : s.transformations.get? ti = some t) (hav : t.isAvailable = true)
    (hrep : t.hasReplacement = false)
    (hlen : s'.transformations.length = s.transformations.length)
    (hti : s'.transformations.get? ti =
      some { t with isAvailable := false, status := some Status.accepted })
    (hne : ∀ k, k ≠ ti → s'.transformations.get? k = s.transformations.get? k) :
    sentencePsi s' < sentencePsi s := by
  have h1 : psiT { t with isAvailable := false, status := some Status.accepted } = 0 := by
    rw [psiT]
    show (if (!t.hasReplacement && false) = true then 1 else 0) = 0
    simp
  have h2 : psiT t = 1 := by
    rw [psiT, hrep, hav]
    rfl
  rw [sentencePsi, sentencePsi]
  refine natsum_lt_pointwise _ _
    (by rw [List.length_map, List.length_map, hlen]) ?_ ti
    (psiT { t with isAvailable := false, status := some Status.accepted })
    (psiT t) ?_ ?_ (by omega)
  · intro k x y hx hy
    rw [List.get?_map] at hx hy
    by_cases hk : k = ti
    · subst hk
      rw [hti] at hx
      rw [ht] at hy
      obtain rfl : psiT
          { t with isAvailable := false, status := some Status.accepted } = x := by
        simpa using hx
      obtain rfl : psiT t = y := by simpa using hy
      omega
    · rw [hne k hk] at hx
      rw [hx] at hy
      exact le_of_eq ((Option.some.injEq _ _).mp hy)
  · rw [List.get?_map, hti]
    rfl
  · rw [List.get?_map, ht]
    rfl

/-- One applyAll iteration: accepting the transformation that
getNextTransform returned preserves the data model conditions and the
stream invariant, and strictly decreases the measure. -/
theorem acceptStep (inr : Bool) (d : Doc) (e : (Nat × Nat) × Transform)
    (hWF : docWF d) (hInv : docInv d)
    (hnext : getNextTransformE inr true d = some e) :
    docWF (acceptCorrection d e.1.1 e.1.2).1 ∧
    docInv (acceptCorrection d e.1.1 e.1.2).1 ∧
    docM (acceptCorrection d e.1.1 e.1.2).1 < docM d := by
  obtain ⟨⟨si, ti⟩, t⟩ := e
  obtain ⟨⟨s, hs, ht⟩, hav, -⟩ := getNext_spec inr d _ hnext
  obtain ⟨s', hs', hoth, hlenr, horig, hact, hlen, hti, hne, hnorepl⟩ :=
    accept_spec d si ti s t hs ht hav
  have hshapes : s'.transformations.map shape = s.transformations.map shape :=
    accept_shapes s s' t ti ht hti hne
  have hswf : sentenceWF s := hWF s (List.get?_mem hs)
  have hswf2 : sentenceWF s' := by
    show shapesWF (tokenIds s'.originalSentence) (s'.transformations.map shape)
    rw [horig, hshapes]
    exact hswf
  have hWFd2 : docWF (acceptCorrection d si ti).1 := by
    intro u hu
    obtain ⟨k, hk⟩ := List.mem_iff_get?.mp hu
    by_cases hksi : k = si
    · subst hksi
      rw [hs'] at hk
      obtain rfl : s' = u := (Option.some.injEq _ _).mp hk
      exact hswf2
    · rw [hoth k hksi] at hk
      exact hWF u (List.get?_mem hk)
  have hN2 : docN (acceptCorrection d si ti).1 = docN d :=
    doc_sum_eq (fun u => u.transformations.length) d _ si s s' hs hs' hoth hlen
  refine ⟨hWFd2, ?_, ?_⟩
  · intro u hu
    obtain ⟨k, hk⟩ := List.mem_iff_get?.mp hu
    by_cases hksi : k = si
    · subst hksi
      rw [hs'] at hk
      obtain rfl : s' = u := (Option.some.injEq _ _).mp hk
      obtain ⟨H, hH⟩ := hInv s (List.get?_mem hs)
      by_cases hrep : t.hasReplacement = true
      · by_cases hp : tokensArePresent t.tokensAffected s.activeTokens = true
        · refine ⟨H ++ [ti], ?_⟩
          show streamInvH (tokenIds s'.originalSentence)
            (s'.transformations.map shape) (H ++ [ti]) (tokenIds s'.activeTokens)
          rw [horig, hshapes, hact, if_pos hrep]
          refine spliceStep _ _ H s.activeTokens t.tokensAffected t.tokensAdded ti
            hswf hH ?_ hp
          rw [List.get?_map, ht]
          show some (shape t) =
            some (tokenIds t.tokensAffected, tokenIds t.tokensAdded, true)
          rw [shape, hrep]
        · refine ⟨H, ?_⟩
          show streamInvH (tokenIds s'.originalSentence)
            (s'.transformations.map shape) H (tokenIds s'.activeTokens)
          rw [horig, hshapes, hact, if_pos hrep,
            replaceTokens_not_present _ _ _ (by simpa using hp)]
          exact hH
      · refine ⟨H, ?_⟩
        show streamInvH (tokenIds s'.originalSentence)
          (s'.transformations.map shape) H (tokenIds s'.activeTokens)
        rw [horig, hshapes, hact, if_neg hrep]
        exact hH
    · rw [hoth k hksi] at hk
      exact hInv u (List.get?_mem hk)
  · by_cases hrep : t.hasReplacement = true
    · by_cases hp : tokensArePresent t.tokensAffected s.activeTokens = true
      · have hVlt : docV (acceptCorrection d si ti).1 < docV d := by
          refine doc_sum_lt sentenceV d _ si s s' hlenr hs hs' hoth ?_
          exact sentenceV_splice_lt s s' ti t hswf ht hrep hp hshapes
            (by rw [hact, if_pos hrep])
        have hPhi2 : docPhi (acceptCorrection d si ti).1 ≤ docN d := by
          rw [← hN2]
          exact docPhi_le_docN _
        have hPsi2 : docPsi (acceptCorrection d si ti).1 ≤ docN d := by
          rw [← hN2]
          exact docPsi_le_docN _
        rw [docM, docM, hN2]
        have hstep1 : docPhi (acceptCorrection d si ti).1 * (docN d + 1) +
            docPsi (acceptCorrection d si ti).1 ≤
            docN d * (docN d + 1) + docN d :=
          Nat.add_le_add (mul_le_mul_right' hPhi2 _) hPsi2
        have hstep2 : docN d * (docN d + 1) + docN d + 1 =
            (docN d + 1) * (docN d + 1) := by ring
        have hV1 : docV (acceptCorrection d si ti).1 + 1 ≤ docV d := hVlt
        calc docV (acceptCorrection d si ti).1 * ((docN d + 1) * (docN d + 1)) +
              docPhi (acceptCorrection d si ti).1 * (docN d + 1) +
              docPsi (acceptCorrection d si ti).1
            = docV (acceptCorrection d si ti).1 * ((docN d + 1) * (docN d + 1)) +
              (docPhi (acceptCorrection d si ti).1 * (docN d + 1) +
               docPsi (acceptCorrection d si ti).1) := by ring
          _ ≤ docV (acceptCorrection d si ti).1 * ((docN d + 1) * (docN d + 1)) +
              (docN d * (docN d + 1) + docN d) := Nat.add_le_add_left hstep1 _
          _ < docV (acceptCorrection d si ti).1 * ((docN d + 1) * (docN d + 1)) +
              (docN d * (docN d + 1) + docN d + 1) :=
              Nat.add_lt_add_left (Nat.lt_succ_self _) _
          _ = (docV (acceptCorrection d si ti).1 + 1) *
              ((docN d + 1) * (docN d + 1)) := by rw [hstep2]; ring
          _ ≤ docV d * ((docN d + 1) * (docN d + 1)) := mul_le_mul_right' hV1 _
          _ ≤ docV d * ((docN d + 1) * (docN d + 1)) +
              docPhi d * (docN d + 1) + docPsi d := by
              rw [Nat.add_assoc]
              exact Nat.le_add_right _ _
      · have hpf : tokensArePresent t.tokensAffected s.activeTokens = false := by
          simpa using hp
        have hactS : s'.activeTokens = s.activeTokens := by
          rw [hact, if_pos hrep, replaceTokens_not_present _ _ _ hpf]
        have hVeq : docV (acceptCorrection d si ti).1 = docV d :=
          doc_sum_eq sentenceV d _ si s s' hs hs' hoth
            (sentenceV_congr s s' hshapes (by rw [hactS]))
        have hrt : replaceTokens s.activeTokens t.tokensAffected t.tokensAdded =
            s.activeTokens := replaceTokens_not_present _ _ _ hpf
        have hne2 : ∀ k, k ≠ ti → s'.transformations.get? k =
            s.transformations.get? k ∨ s'.transformations.get? k =
            (s.transformations.get? k).map (setAvailOne s.activeTokens) := by
          intro k hk
          rcases hne k hk with h | h
          · exact Or.inl h
          · rw [hrt] at h
            exact Or.inr h
        have hPhiLt : docPhi (acceptCorrection d si ti).1 < docPhi d :=
          doc_sum_lt sentencePhi d _ si s s' hlenr hs hs' hoth
            (sentencePhi_defensive_lt s s' ti t ht hav hpf hactS hlen hti hne2)
        have hPsi2 : docPsi (acceptCorrection d si ti).1 ≤ docN d := by
          rw [← hN2]
          exact docPsi_le_docN _
        rw [docM, docM, hN2, hVeq]
        have hPhi1 : docPhi (acceptCorrection d si ti).1 + 1 ≤ docPhi d := hPhiLt
        calc docV d * ((docN d + 1) * (docN d + 1)) +
              docPhi (acceptCorrection d si ti).1 * (docN d + 1) +
              docPsi (acceptCorrection d si ti).1
            ≤ docV d * ((docN d + 1) * (docN d + 1)) +
              docPhi (acceptCorrection d si ti).1 * (docN d + 1) + docN d :=
              Nat.add_le_add_left hPsi2 _
          _ < docV d * ((docN d + 1) * (docN d + 1)) +
              docPhi (acceptCorrection d si ti).1 * (docN d + 1) + (docN d + 1) :=
              Nat.add_lt_add_left (Nat.lt_succ_self _) _
          _ = docV d * ((docN d + 1) * (docN d + 1)) +
              (docPhi (acceptCorrection d si ti).1 + 1) * (docN d + 1) := by ring
          _ ≤ docV d * ((docN d + 1) * (docN d + 1)) + docPhi d * (docN d + 1) :=
              Nat.add_le_add_left (mul_le_mul_right' hPhi1 _) _
          _ ≤ docV d * ((docN d + 1) * (docN d + 1)) + docPhi d * (docN d + 1) +
              docPsi d := Nat.le_add_right _ _
    · have hrepf : t.hasReplacement = false := by simpa using hrep
      have hactS : s'.activeTokens = s.activeTokens := by
        rw [hact, if_neg hrep]
      have hneq : ∀ k, k ≠ ti → s'.transformations.get? k =
          s.transformations.get? k := hnorepl hrepf
      have hVeq : docV (acceptCorrection d si ti).1 = docV d :=
        doc_sum_eq sentenceV d _ si s s' hs hs' hoth
          (sentenceV_congr s s' hshapes (by rw [hactS]))
      have hPhiLe : docPhi (acceptCorrection d si ti).1 ≤ docPhi d :=
        doc_sum_le sentencePhi d _ si s s' hlenr hs hs' hoth
          (sentencePhi_norepl_le s s' ti t ht hav hactS hlen hti hneq)
      have hPsiLt : docPsi (acceptCorrection d si ti).1 < docPsi d :=
        doc_sum_lt sentencePsi d _ si s s' hlenr hs hs' hoth
          (sentencePsi_norepl_lt s s' ti t ht hav hrepf hlen hti hneq)
      rw [docM, docM, hN2, hVeq]
      have h6 : docPhi (acceptCorrection d si ti).1 * (docN d + 1) ≤
          docPhi d * (docN d + 1) := mul_le_mul_right' hPhiLe _
      exact add_lt_add_of_le_of_lt (Nat.add_le_add_left h6 _) hPsiLt


/-- With enough fuel, the applyAll loop runs out of next transformations:
every iteration strictly decreases the measure, so fuel above the measure
reaches a state whose getNextTransform is none. -/
theorem applyAll_halts :
    ∀ (k : Nat) (d : Doc) (inr : Bool), docWF d → docInv d → docM d < k →
      getNextTransformE inr true ((applyAllGo inr true k d).1) = none := by
  intro k
  induction k with
  | zero => intro d inr _ _ hm; omega
  | succ k ih =>
    intro d inr hWF hInv hm
    rw [applyAllGo]
    cases hnext : getNextTransformE inr true d with
    | none => exact hnext
    | some e =>
      obtain ⟨hWF2, hInv2, hM2⟩ := acceptStep inr d e hWF hInv hnext
      exact ih _ inr hWF2 hInv2 (by omega)

/-- With suggestion skipping, nothing applyAll passes to acceptCorrection
is a suggestion. -/
theorem applyAllGo_no_suggestion (inr : Bool) :
    ∀ (fuel : Nat) (d : Doc) (t : Transform),
      t ∈ (applyAllGo inr true fuel d).2 → t.isSuggestion = false := by
  intro fuel
  induction fuel with
  | zero => intro d t ht; simp [applyAllGo] at ht
  | succ n ih =>
    intro d t ht
    rw [applyAllGo] at ht
    cases hfind : getNextTransformE inr true d with
    | none => rw [hfind] at ht; simp at ht
    | some e =>
      rw [hfind] at ht
      simp only [List.mem_cons] at ht
      rcases ht with h | h
      · subst h
        exact (getNext_spec inr d e hfind).2.2
      · exact ih _ _ h

/-- Claim C8: for every initialized document satisfying the data model of
the specification (pairwise distinct original ids; inserted ids pairwise
distinct, colliding with no existing id, and pairwise disjoint across
transformations; transformations stored in topological order; replacement
transformations affecting at least one token), editor.applyAll with
suggestion skipping never calls acceptCorrection on a transformation whose
isSuggestion flag is true, and it terminates after finitely many
iterations: with fuel docM plus one the loop reaches a state with no next
transformation, even when available suggestions remain un-actioned, and
for either value of the editor's ignoreNoReplacement configuration. -/
theorem c8_applyall_skips_suggestions_and_terminates (d : Doc) (inr : Bool)
    (hWF : ∀ s ∈ (setMetaData d).rulesApplied, sentenceWF s) :
    (∀ (fuel : Nat) (t : Transform),
      t ∈ (applyAllGo inr true fuel (setMetaData d)).2 → t.isSuggestion = false) ∧
    ∃ N, getNextTransformE inr true
      ((applyAllGo inr true N (setMetaData d)).1) = none := by
  refine ⟨fun fuel t ht => applyAllGo_no_suggestion inr fuel (setMetaData d) t ht, ?_⟩
  exact ⟨docM (setMetaData d) + 1,
    applyAll_halts (docM (setMetaData d) + 1) (setMetaData d) inr hWF
      (docInv_init d hWF) (Nat.lt_succ_self _)⟩

/-- Witness for claim C8 at the initialized docABC: the data model
conditions evaluate to true, and the theorem applies. -/
theorem c8_witness :
    (∀ s ∈ (setMetaData docABC).rulesApplied, sentenceWF s) ∧
    ((∀ (fuel : Nat) (t : Transform),
      t ∈ (applyAllGo false true fuel (setMetaData docABC)).2 →
        t.isSuggestion = false) ∧
    ∃ N, getNextTransformE false true
      ((applyAllGo false true N (setMetaData docABC)).1) = none) :=
  ⟨by decide, c8_applyall_skips_suggestions_and_terminates docABC false (by decide)⟩

/-- Claim C1: after initializing docABC and performing two successful
accepts (position 2, then the stale-available position 1), the active
tokens are the single token 7, while replaying the currently accepted
transformations in transform-index order over the original sentence yields
tokens 1 and 8. The replay invariant of the claim fails on the code: the
second accept passes its availability guard on a stale cached flag, its
splice is a defensive no-op, and its status still becomes accepted. -/
theorem c1_replay_invariant_fails_on_code :
    (acceptCorrection dInitABC 0 2).2 = true ∧
    (acceptCorrection dAfterC 0 1).2 = true ∧
    (dAfterCB.rulesApplied.get? 0).map Sentence.activeTokens = some [tok 7 "z"] ∧
    (dAfterCB.rulesApplied.get? 0).map
        (fun s => replayList s.originalSentence s.transformations) =
      some [tok 1 "a", tok 8 "y"] ∧
    some [tok 7 "z"] ≠ some [tok 1 "a", tok 8 "y"] := by
  decide

/-- Claim C2: in docABC the transformations at positions 1 and 2 share
affected token 2, yet after setMetaData they carry different group ids
(1 and 0): the group assignment is not the partition into connected
components of the overlap relation, because the forward scan of the breadth
first search skips transformations that already belong to an earlier group. -/
theorem c2_overlapping_transforms_in_different_groups :
    (dInitABC.getTransform? 0 1).map Transform.tokensAffected = some [tok 2 "b"] ∧
    (dInitABC.getTransform? 0 2).map Transform.tokensAffected =
      some [tok 1 "a", tok 2 "b"] ∧
    arraysOverlapTokens [tok 2 "b"] [tok 1 "a", tok 2 "b"] = true ∧
    (dInitABC.getTransform? 0 1).map Transform.groupId = some (some 1) ∧
    (dInitABC.getTransform? 0 2).map Transform.groupId = some (some 0) := by
  decide

/-- Claim C3 counterexample: after a successful rejectCorrection the
rejected transformation's cached isAvailable is false while its affected
tokens are still present in the unchanged active stream, so the claimed
equality between isAvailable and tokensArePresent fails right after a
reject operation. -/
theorem c3_counterexample_reject_breaks_consistency :
    (rejectCorrection (setMetaData docRej) 0 0).2 = true ∧
    ((rejectCorrection (setMetaData docRej) 0 0).1.rulesApplied.get? 0).map
        Sentence.activeTokens = some [tok 1 "a"] ∧
    ((rejectCorrection (setMetaData docRej) 0 0).1.getTransform? 0 0).map
        Transform.isAvailable = some false ∧
    ((rejectCorrection (setMetaData docRej) 0 0).1.getTransform? 0 0).map
        (fun t => tokensArePresent t.tokensAffected [tok 1 "a"]) = some true := by
  decide

/-- Claim C4: getSentenceOffset on the initialized two-sentence document
returns the looked-up sentence object itself (the result of the find call;
the final return of the accumulated offset is dead code), not the integer
sum of rendered lengths of the preceding sentences. -/
theorem c4_sentence_offset_returns_sentence_object :
    getSentenceOffset (setMetaData docTwoSent)
        (((setMetaData docTwoSent).rulesApplied.get? 1).getD (rawSentence [] [])) =
      (setMetaData docTwoSent).rulesApplied.get? 1 ∧
    ((setMetaData docTwoSent).rulesApplied.get? 1).isSome = true := by
  decide

/-- Claim C5 counterexample: calling setMetaData a second time on the
already-initialized docRej is not a no-op: the first call leaves the
sentence's group table as the one group holding position 0, the second call
resets it to empty, so the resulting documents differ. -/
theorem c5_counterexample_second_call_clears_groups :
    ((setMetaData docRej).rulesApplied.get? 0).map Sentence.groups = some [[0]] ∧
    ((setMetaData (setMetaData docRej)).rulesApplied.get? 0).map Sentence.groups =
      some [] ∧
    setMetaData (setMetaData docRej) ≠ setMetaData docRej := by
  decide

/-- Claim C6 counterexample: in the reachable state dAfterC the
transformation at position 1 has isAvailable true (a stale cache value: its
affected token 2 is no longer present). Accepting it succeeds without
changing the stream, but the following resetCorrection fails: its status
stays accepted instead of returning to clean and its isAvailable stays
false instead of returning to true. -/
theorem c6_counterexample_accept_reset_fails_on_stale_flag :
    (dAfterC.getTransform? 0 1).map Transform.isAvailable = some true ∧
    (acceptCorrection dAfterC 0 1).2 = true ∧
    (resetCorrection dAfterCB 0 1).2 = false ∧
    ((resetCorrection dAfterCB 0 1).1.getTransform? 0 1).map Transform.status =
      some (some Status.accepted) ∧
    ((resetCorrection dAfterCB 0 1).1.getTransform? 0 1).map Transform.isAvailable =
      some false := by
  decide

/-- Claim C7 counterexample: the clean comment-only transformation of docNR
(no replacement) has canUndoTransform true, and resetCorrection on it
returns true and mutates the document (its isAvailable flips from false to
true), contradicting the claim that a clean transformation can never be
undone. -/
theorem c7_counterexample_clean_no_replacement_undoable :
    ((setMetaData docNR).getTransform? 0 0).map Transform.status =
      some (some Status.clean) ∧
    ((setMetaData docNR).rulesApplied.get? 0).map
        (fun s => (s.transformations.get? 0).map (canUndoTransform s)) =
      some (some true) ∧
    (resetCorrection (setMetaData docNR) 0 0).2 = true ∧
    ((setMetaData docNR).getTransform? 0 0).map Transform.isAvailable = some false ∧
    ((resetCorrection (setMetaData docNR) 0 0).1.getTransform? 0 0).map
        Transform.isAvailable = some true := by
  decide

/-- Claim C9: in the reachable state dAfterC, acceptCorrection on the
transformation at position 1 proceeds past its isAvailable guard (the
cached flag is true) although the transformation has a replacement and its
affected tokens are not present, so replaceTokens takes its defensive
return-stream-unchanged branch during an accept: the accept reports success
and the active stream is unchanged. -/
theorem c9_defensive_splice_branch_taken_during_accept :
    (dAfterC.getTransform? 0 1).map Transform.isAvailable = some true ∧
    (dAfterC.getTransform? 0 1).map Transform.hasReplacement = some true ∧
    (dAfterC.rulesApplied.get? 0).map Sentence.activeTokens = some [tok 7 "z"] ∧
    (dAfterC.getTransform? 0 1).map
        (fun t => tokensArePresent t.tokensAffected [tok 7 "z"]) = some false ∧
    (acceptCorrection dAfterC 0 1).2 = true ∧
    (dAfterCB.rulesApplied.get? 0).map Sentence.activeTokens = some [tok 7 "z"] := by
  decide

/-- Claim C10: editor.undoAll reads the property canUndoTransform, which the
editor object never defines, so the loop condition is the falsy undefined:
the loop exits at its first test and the whole editor state (document,
every sentence's activeTokens, every status and isAvailable flag, and the
history stack) is returned unchanged, for every fuel and every state. -/
theorem c10_undoall_is_a_noop :
    editorPropTruthy "canUndoTransform" = false ∧
    ∀ (fuel : Nat) (st : EditorState), undoAll fuel st = st := by
  refine ⟨by decide, ?_⟩
  intro fuel st
  cases fuel with
  | zero => rfl
  | succ n =>
    show (if editorPropTruthy "canUndoTransform" then
        undoAll n (undoLastTransformE st).1 else st) = st
    rw [show editorPropTruthy "canUndoTransform" = false from by decide]
    simp

end PT
